import Mathlib

/-!
# Verification of the algorithms repository against its specification

Shallow embedding of the repository's code:

* `minTimeToVisitAllPoints` (chebyshev path timing, src/unnamed/part_002)
* `orangesRotting` (grid flood fill, src/unnamed/part_000)
* `spiralMatrixc` (src/leetcode/spiral-matrix.js)
* `estimate_transition_matrix`, `HiddenMarkovModel` (forward / backward /
  Baum-Welch), `RiskManager` (src/unnamed/part_001)
* `black_scholes` (src/finance/black-scholes-model.ipynb)
* `monte_carlo_option` (src/finance/monte-carlo-simulation.ipynb)

JavaScript / Python floating point numbers are modelled as rationals;
library transcendental functions (log, exp, sqrt, the normal cdf) and the
numpy random generator are abstract parameters of the embedding, so every
statement proved below holds for any interpretation of those primitives.
-/

set_option maxHeartbeats 1000000

/-! ### minTimeToVisitAllPoints (src/unnamed/part_002, lines 15-29)

The JS loop keeps a running `totalTime` and, for every index `i ≥ 1`, adds
`max(|x2 - x1|, |y2 - y1|)` for the consecutive pair of points. -/

/-- The `for` loop of `minTimeToVisitAllPoints`: `prev` is `points[i-1]`,
`rest` the remaining points, `totalTime` the accumulator. -/
def minTimeGo (prev : ℤ × ℤ) (rest : List (ℤ × ℤ)) (totalTime : ℤ) : ℤ :=
  match rest with
  | [] => totalTime
  | q :: rest => minTimeGo q rest (totalTime + max |q.1 - prev.1| |q.2 - prev.2|)

/-- `minTimeToVisitAllPoints(points)` from src/unnamed/part_002. -/
def minTimeToVisitAllPoints (points : List (ℤ × ℤ)) : ℤ :=
  match points with
  | [] => 0
  | p :: rest => minTimeGo p rest 0

/-! ### RiskManager (src/unnamed/part_001, lines 303-311) -/

/-- `RiskManager.__init__(max_position=1.0, vol_target=0.02, stop_loss=-0.05)`. -/
structure RiskManager where
  max_position : ℚ := 1
  vol_target : ℚ := 2 / 100
  stop_loss : ℚ := -(5 / 100)

/-- `size_position(realized_vol)`:
`min(vol_target / (realized_vol + 1e-8), max_position)`. -/
def RiskManager.size_position (rm : RiskManager) (realized_vol : ℚ) : ℚ :=
  min (rm.vol_target / (realized_vol + 1 / 100000000)) rm.max_position

/-! ### black_scholes (src/finance/black-scholes-model.ipynb, cell 3)

The Python function has signature `black_scholes(S, X, T, r, sigma,
option_type)` but its body reads the **global** variable `K` (set to 100 in
cell 4 of the notebook); the parameter `X` never occurs in the body.  The
embedding therefore takes the global `K` as an extra argument and keeps the
unused parameter `X`.  `scipy.stats.norm.cdf`, `np.log`, `np.exp` and
`np.sqrt` are abstract primitives bundled in `BSPrims`. -/

/-- Abstract numerical primitives used by `black_scholes`. -/
structure BSPrims where
  log : ℚ → ℚ
  exp : ℚ → ℚ
  sqrt : ℚ → ℚ
  norm_cdf : ℚ → ℚ

/-- `black_scholes(S, X, T, r, sigma, option_type)` with the enclosing
notebook global `K` passed explicitly.  Mirrors cell 3 of the notebook:
`d1 = (log(S / K) + (r + 0.5 sigma^2) T) / (sigma sqrt(T))`,
`d2 = d1 - sigma sqrt(T)`, and the call / put branches both price with `K`,
not with the parameter `X`. -/
def black_scholes (P : BSPrims) (K : ℚ) (S X T r sigma : ℚ)
    (option_type : String) : ℚ :=
  let d1 := (P.log (S / K) + (r + 1 / 2 * sigma ^ 2) * T) / (sigma * P.sqrt T)
  let d2 := d1 - sigma * P.sqrt T
  if option_type = "call" then
    S * P.norm_cdf d1 - K * P.exp (-(r * T)) * P.norm_cdf d2
  else
    K * P.exp (-(r * T)) * P.norm_cdf (-d2) - S * P.norm_cdf (-d1)

/-! ### monte_carlo_option (src/finance/monte-carlo-simulation.ipynb, cell 3)

The function begins with `np.random.seed(42)` and then draws
`np.random.standard_normal(num_simulations)`.  The global numpy generator is
modelled as explicit state of an abstract type `σ`: `seed` builds a state
from an integer seed and `standard_normal` consumes state, returning the
draws and the successor state.  The function receives the generator state at
call time and returns the price together with the state it leaves behind. -/

/-- Abstract numerical primitives used by `monte_carlo_option`. -/
structure MCPrims where
  exp : ℚ → ℚ
  sqrt : ℚ → ℚ

/-- The global numpy random generator, abstractly. -/
structure NumpyRNG (σ : Type) where
  seed : ℕ → σ
  standard_normal : σ → ℕ → List ℚ × σ

/-- `np.mean` on a list. -/
def listMean (l : List ℚ) : ℚ := l.sum / l.length

/-- `monte_carlo_option(S, K, T, r, sigma, num_simulations, option_type)`.
`rng` is the state of the global numpy generator when the call starts; the
first action `np.random.seed(42)` replaces it. -/
def monte_carlo_option {σ : Type} (P : MCPrims) (R : NumpyRNG σ) (rng : σ)
    (S K T r sigma : ℚ) (num_simulations : ℕ) (option_type : String) :
    ℚ × σ :=
  let s0 := R.seed 42
  let draw := R.standard_normal s0 num_simulations
  let S_T := draw.1.map fun z =>
    S * P.exp ((r - 1 / 2 * sigma ^ 2) * T + sigma * P.sqrt T * z)
  let option_payoff := S_T.map fun sT =>
    if option_type = "call" then max (sT - K) 0 else max (K - sT) 0
  (P.exp (-(r * T)) * listMean option_payoff, draw.2)

/-! ### orangesRotting (src/unnamed/part_000, lines 11-44)

The source file's breadth-first search is left unfinished: the body of the
`while` loop shifts an entry off the queue and computes `newRow`/`newCol`
for each direction, but the `if` that should rot the neighbour is an empty
comment, nothing is ever pushed, `freshCount` never decreases, and there is
no `return` after the loop, so the call evaluates to `undefined` (modelled
as `none`).  The two early returns (`-1` for a missing or empty grid, `0`
when there is no fresh orange) are complete. -/

/-- `freshCount`: the nested `for` loops counting cells equal to `1`
over `r < rows`, `c < cols`. -/
def countFresh (g : List (List ℕ)) (rows cols : ℕ) : ℕ :=
  ((List.range rows).map fun r =>
    (List.range cols).countP fun c => (g.getD r []).getD c 0 = 1).sum

/-- The initial queue of rotten oranges `[row, col, minute]`, minute `0`. -/
def initialQueue (g : List (List ℕ)) (rows cols : ℕ) : List (ℕ × ℕ × ℕ) :=
  (List.range rows).flatMap fun r =>
    (List.range cols).filterMap fun c =>
      if (g.getD r []).getD c 0 = 2 then some (r, c, 0) else none

/-- The `while (queue.length > 0)` loop.  Its body only destructures the
shifted entry and computes neighbour coordinates; since the unfinished `if`
never pushes, the queue strictly shrinks, and when it empties the function
falls through without a `return`, i.e. yields `undefined` (`none`). -/
def rotLoop : List (ℕ × ℕ × ℕ) → Option ℤ
  | [] => none
  | _ :: rest => rotLoop rest

/-- `orangesRotting(grid)`.  A JS `null`/missing grid is `none`; a defined
grid is `some g`.  The result is `some t` for `return t` and `none` for
falling off the end of the function (`undefined`). -/
def orangesRotting (grid : Option (List (List ℕ))) : Option ℤ :=
  match grid with
  | none => some (-1)
  | some g =>
    if g.length = 0 then some (-1)
    else
      let rows := g.length
      let cols := (g.getD 0 []).length
      let queue := initialQueue g rows cols
      let freshCount := countFresh g rows cols
      if freshCount = 0 then some 0
      else rotLoop queue

/-! ### estimate_transition_matrix (src/unnamed/part_001, lines 129-138)

The Python function zips `states[:-1]` with `states[1:]`, counts each
transition into `matrix[current, next]`, and divides every row by its sum.
Entry `(i, j)` of the count matrix is the number of adjacent pairs
`(i, j)` in the sequence. -/

/-- `matrix[i, j]` after the counting loop: the number of indices `t` with
`states[t] = i` and `states[t+1] = j`. -/
def transitionCounts (states : List ℕ) (i j : ℕ) : ℕ :=
  (states.zip states.tail).count (i, j)

/-- `row_sums[i] = matrix.sum(axis=1)[i]`. -/
def transitionRowSum (states : List ℕ) (num_states i : ℕ) : ℚ :=
  ∑ j ∈ Finset.range num_states, (transitionCounts states i j : ℚ)

/-- `estimate_transition_matrix(states, num_states)[i, j]`:
the count divided by the row sum. -/
def estimate_transition_matrix (states : List ℕ) (num_states : ℕ)
    (i j : ℕ) : ℚ :=
  (transitionCounts states i j : ℚ) / transitionRowSum states num_states i

/-! ### HiddenMarkovModel (src/unnamed/part_001, lines 225-287)

Model parameters are total maps from state / bin indices to rationals;
only indices below `num_hidden_states` resp. `num_observation_bins` are
meaningful.  `forward` and `backward` build the `T × H` tables `alpha` and
`beta` row by row, exactly like the nested numpy loops. -/

structure HiddenMarkovModel where
  num_hidden_states : ℕ
  num_observation_bins : ℕ
  transition_probs : ℕ → ℕ → ℚ
  emission_probs : ℕ → ℕ → ℚ
  initial_probs : ℕ → ℚ

/-- `__init__(num_hidden_states, num_observation_bins)`: uniform rows. -/
def HiddenMarkovModel.mkUniform (H K : ℕ) : HiddenMarkovModel :=
  { num_hidden_states := H
    num_observation_bins := K
    transition_probs := fun _ _ => 1 / H
    emission_probs := fun _ _ => 1 / K
    initial_probs := fun _ => 1 / H }

/-- The inner double loop of `forward`:
`alpha[t, j] = sum_i (alpha[t-1, i] * transition_probs[i, j]) *
emission_probs[j, observations[t]]`, computed from the previous row. -/
def HiddenMarkovModel.forwardStep (m : HiddenMarkovModel) (prev : List ℚ)
    (o : ℕ) : List ℚ :=
  (List.range m.num_hidden_states).map fun j =>
    (∑ i ∈ Finset.range m.num_hidden_states,
      prev.getD i 0 * m.transition_probs i j) * m.emission_probs j o

/-- Builds the rows of `alpha` from the first row and the remaining
observations. -/
def HiddenMarkovModel.forwardAux (m : HiddenMarkovModel) (row : List ℚ) :
    List ℕ → List (List ℚ)
  | [] => [row]
  | o :: rest => row :: m.forwardAux (m.forwardStep row o) rest

/-- `forward(observations)`: the `T × H` table `alpha`, with
`alpha[0] = initial_probs * emission_probs[:, observations[0]]`. -/
def HiddenMarkovModel.forward (m : HiddenMarkovModel)
    (observations : List ℕ) : List (List ℚ) :=
  match observations with
  | [] => []
  | o0 :: rest =>
    m.forwardAux
      ((List.range m.num_hidden_states).map fun j =>
        m.initial_probs j * m.emission_probs j o0) rest

/-- `backward(observations)`: the `T × H` table `beta`, built from the last
row `beta[T-1] = ones` backwards:
`beta[t, i] = sum_j transition_probs[i, j] * emission_probs[j,
observations[t+1]] * beta[t+1, j]`. -/
def HiddenMarkovModel.backward (m : HiddenMarkovModel) :
    List ℕ → List (List ℚ)
  | [] => []
  | [_] => [(List.range m.num_hidden_states).map fun _ => (1 : ℚ)]
  | _ :: o1 :: rest =>
    let tail := m.backward (o1 :: rest)
    ((List.range m.num_hidden_states).map fun i =>
      ∑ j ∈ Finset.range m.num_hidden_states,
        m.transition_probs i j * m.emission_probs j o1 *
          (tail.getD 0 []).getD j 0) :: tail

/-- The denominator `denom` of the `xi[t]` update in `baum_welch_train`:
`np.dot(np.dot(alpha[t], A) * B[:, observations[t+1]], beta[t+1])`. -/
def HiddenMarkovModel.xiDenom (m : HiddenMarkovModel)
    (observations : List ℕ) (t : ℕ) : ℚ :=
  let alpha := m.forward observations
  let beta := m.backward observations
  ∑ j ∈ Finset.range m.num_hidden_states,
    (∑ i ∈ Finset.range m.num_hidden_states,
      (alpha.getD t []).getD i 0 * m.transition_probs i j) *
    m.emission_probs j (observations.getD (t + 1) 0) *
    (beta.getD (t + 1) []).getD j 0

/-- `xi[t, i, j] = alpha[t, i] * A[i, j] * B[j, observations[t+1]] *
beta[t+1, j] / denom`. -/
def HiddenMarkovModel.xi (m : HiddenMarkovModel) (observations : List ℕ)
    (t i j : ℕ) : ℚ :=
  let alpha := m.forward observations
  let beta := m.backward observations
  (alpha.getD t []).getD i 0 * m.transition_probs i j *
    m.emission_probs j (observations.getD (t + 1) 0) *
    (beta.getD (t + 1) []).getD j 0 / m.xiDenom observations t

/-- `gamma[t, i] = np.sum(xi, axis=2)[t, i]` for `t < T - 1`. -/
def HiddenMarkovModel.gammaVal (m : HiddenMarkovModel)
    (observations : List ℕ) (t i : ℕ) : ℚ :=
  ∑ j ∈ Finset.range m.num_hidden_states, m.xi observations t i j

/-- The `vstack`-extended gamma with the extra last row
`np.sum(xi[-1, :, :], axis=0)`. -/
def HiddenMarkovModel.gammaExt (m : HiddenMarkovModel)
    (observations : List ℕ) (t i : ℕ) : ℚ :=
  if t = observations.length - 1 then
    ∑ i2 ∈ Finset.range m.num_hidden_states,
      m.xi observations (observations.length - 2) i2 i
  else m.gammaVal observations t i

/-- `np.sum(xi, axis=0)[i, j]`: numerator of the transition update. -/
def HiddenMarkovModel.transNumer (m : HiddenMarkovModel)
    (observations : List ℕ) (i j : ℕ) : ℚ :=
  ∑ t ∈ Finset.range (observations.length - 1), m.xi observations t i j

/-- Row sum dividing the transition update. -/
def HiddenMarkovModel.transDenom (m : HiddenMarkovModel)
    (observations : List ℕ) (i : ℕ) : ℚ :=
  ∑ j ∈ Finset.range m.num_hidden_states, m.transNumer observations i j

/-- `np.sum(gamma[mask], axis=0)[i]` for bin `l`: numerator of the
emission update. -/
def HiddenMarkovModel.emisNumer (m : HiddenMarkovModel)
    (observations : List ℕ) (i l : ℕ) : ℚ :=
  ∑ t ∈ Finset.range observations.length,
    if observations.getD t 0 = l then m.gammaExt observations t i else 0

/-- Row sum dividing the emission update. -/
def HiddenMarkovModel.emisDenom (m : HiddenMarkovModel)
    (observations : List ℕ) (i : ℕ) : ℚ :=
  ∑ l ∈ Finset.range m.num_observation_bins, m.emisNumer observations i l

/-- One iteration of the `baum_welch_train` loop: the E-step quantities
`xi`/`gamma` are computed from the current parameters, then
`initial_probs`, `transition_probs` and `emission_probs` are replaced by
their normalized re-estimates. -/
def HiddenMarkovModel.baumWelchStep (m : HiddenMarkovModel)
    (observations : List ℕ) : HiddenMarkovModel :=
  { m with
    initial_probs := fun i => m.gammaVal observations 0 i
    transition_probs := fun i j =>
      m.transNumer observations i j / m.transDenom observations i
    emission_probs := fun i l =>
      m.emisNumer observations i l / m.emisDenom observations i }

/-- `baum_welch_train(observations, n_iter)`: `n_iter` iterations of the
update. -/
def HiddenMarkovModel.baum_welch_train (m : HiddenMarkovModel)
    (observations : List ℕ) : ℕ → HiddenMarkovModel
  | 0 => m
  | k + 1 => (m.baumWelchStep observations).baum_welch_train observations k

/-- The probability-matrix invariants of the model: each `transition_probs`
row, each `emission_probs` row and `initial_probs` sum to one. -/
def HiddenMarkovModel.probInvariants (m : HiddenMarkovModel) : Prop :=
  (∀ i ∈ Finset.range m.num_hidden_states,
    ∑ j ∈ Finset.range m.num_hidden_states, m.transition_probs i j = 1) ∧
  (∀ i ∈ Finset.range m.num_hidden_states,
    ∑ l ∈ Finset.range m.num_observation_bins, m.emission_probs i l = 1) ∧
  ∑ i ∈ Finset.range m.num_hidden_states, m.initial_probs i = 1

/-- All normalization denominators of one `baum_welch_train` iteration are
nonzero: every `xi` denominator, every transition row sum and every
emission row sum. -/
def HiddenMarkovModel.denomsNonzero (m : HiddenMarkovModel)
    (observations : List ℕ) : Prop :=
  (∀ t ∈ Finset.range (observations.length - 1),
    m.xiDenom observations t ≠ 0) ∧
  (∀ i ∈ Finset.range m.num_hidden_states,
    m.transDenom observations i ≠ 0) ∧
  (∀ i ∈ Finset.range m.num_hidden_states,
    m.emisDenom observations i ≠ 0)

/-! ### spiralMatrixc (src/leetcode/spiral-matrix.js)

The JS function keeps four boundary indices `top`, `bottom`, `left`,
`right` (JS numbers, here `ℤ`, since `right` and `bottom` drop below `0`
after the last ring of a small matrix), a counter `current` and the bound
`max = n * n`.  Each pass of the `while (current <= max)` loop runs four
`for` loops: left→right along the top row, top→bottom along the right
column, right→left along the bottom row and bottom→top along the left
column, each guarded by `current <= max`, writing `current++` into the
matrix.  Each `for` loop is embedded as the list of visited cells
(`topRowCells`, ...) processed by `fillCells`. -/

/-- `matrix[r][c] = v` on a `List (List ℕ)` matrix; out-of-range writes
(which the JS code never performs) are dropped. -/
def matSet (mat : List (List ℕ)) (r c : ℤ) (v : ℕ) : List (List ℕ) :=
  if 0 ≤ r ∧ 0 ≤ c then
    mat.set r.toNat ((mat.getD r.toNat []).set c.toNat v)
  else mat

/-- `matrix[i][j]` as a natural number (`0` when out of range). -/
def matEntry (mat : List (List ℕ)) (i j : ℕ) : ℕ :=
  (mat.getD i []).getD j 0

/-- One of the four `for` loops: writes `current++` into the listed cells
while the shared guard `current <= max` holds, returning the new matrix and
counter. -/
def fillCells (mat : List (List ℕ)) (cells : List (ℤ × ℤ))
    (current maxN : ℕ) : List (List ℕ) × ℕ :=
  match cells with
  | [] => (mat, current)
  | rc :: rest =>
    if current ≤ maxN then
      fillCells (matSet mat rc.1 rc.2 current) rest (current + 1) maxN
    else (mat, current)

/-- Unguarded sequential writes; `fillCells` agrees with it whenever the
guard never trips. -/
def writeCells (mat : List (List ℕ)) (cells : List (ℤ × ℤ))
    (current : ℕ) : List (List ℕ) :=
  match cells with
  | [] => mat
  | rc :: rest => writeCells (matSet mat rc.1 rc.2 current) rest (current + 1)

/-- Cells of `for (col = left; col <= right; col++)` on row `top`. -/
def topRowCells (top left right : ℤ) : List (ℤ × ℤ) :=
  (List.range (right + 1 - left).toNat).map fun c : ℕ => (top, left + (c : ℤ))

/-- Cells of `for (row = top; row <= bottom; row++)` on column `right`. -/
def rightColCells (right top bottom : ℤ) : List (ℤ × ℤ) :=
  (List.range (bottom + 1 - top).toNat).map fun c : ℕ => (top + (c : ℤ), right)

/-- Cells of `for (col = right; col >= left; col--)` on row `bottom`. -/
def bottomRowCells (bottom right left : ℤ) : List (ℤ × ℤ) :=
  (List.range (right + 1 - left).toNat).map fun c : ℕ => (bottom, right - (c : ℤ))

/-- Cells of `for (row = bottom; row >= top; row--)` on column `left`. -/
def leftColCells (left bottom top : ℤ) : List (ℤ × ℤ) :=
  (List.range (bottom + 1 - top).toNat).map fun c : ℕ => (bottom - (c : ℤ), left)

/-- The loop state of `spiralMatrixc`. -/
structure SpiralState where
  matrix : List (List ℕ)
  top : ℤ
  bottom : ℤ
  left : ℤ
  right : ℤ
  current : ℕ

/-- One pass of the `while` loop: the four `for` loops with the boundary
updates `top++`, `right--`, `bottom--`, `left++` interleaved exactly as in
the source. -/
def spiralBody (st : SpiralState) (maxN : ℕ) : SpiralState :=
  let f1 := fillCells st.matrix (topRowCells st.top st.left st.right)
    st.current maxN
  let top1 := st.top + 1
  let f2 := fillCells f1.1 (rightColCells st.right top1 st.bottom) f1.2 maxN
  let right1 := st.right - 1
  let f3 := fillCells f2.1 (bottomRowCells st.bottom right1 st.left)
    f2.2 maxN
  let bottom1 := st.bottom - 1
  let f4 := fillCells f3.1 (leftColCells st.left bottom1 top1) f3.2 maxN
  { matrix := f4.1, top := top1, bottom := bottom1, left := st.left + 1,
    right := right1, current := f4.2 }

/-- `while (current <= max)`, with fuel; `spiralMatrixc` supplies fuel `n`,
which exceeds the `⌈n/2⌉` passes the loop actually makes. -/
def spiralLoop (maxN : ℕ) : ℕ → SpiralState → SpiralState
  | 0, st => st
  | fuel + 1, st =>
    if st.current ≤ maxN then spiralLoop maxN fuel (spiralBody st maxN)
    else st

/-- `spiralMatrixc(n)`: `n × n` zero matrix, boundaries `0`/`n-1`,
`current = 1`, `max = n * n`. -/
def spiralMatrixc (n : ℕ) : List (List ℕ) :=
  (spiralLoop (n * n) n
    { matrix := List.replicate n (List.replicate n 0)
      top := 0
      bottom := (n : ℤ) - 1
      left := 0
      right := (n : ℤ) - 1
      current := 1 }).matrix

/-- Modelled from the spec's words: the value standing at cell `(i, j)` of
an `n × n` clockwise spiral that starts with `1` in the top-left corner,
walks the outer ring clockwise (top row left→right, right column, bottom
row right→left, left column) and then continues with the inner
`(n-2) × (n-2)` spiral shifted by the `4(n-1)` outer-ring values. -/
def spiralValue : ℕ → ℕ → ℕ → ℕ
  | 0, _, _ => 0
  | n + 1, i, j =>
    if i = 0 then j + 1
    else if j = n then n + i + 1
    else if i = n then 2 * n + (n - j) + 1
    else if j = 0 then 3 * n + (n - i) + 1
    else 4 * n + spiralValue (n - 1) (i - 1) (j - 1)

/-- The ring (distance to the border) of cell `(i, j)` in an `n × n`
matrix. -/
def ringOf (n i j : ℕ) : ℕ :=
  min (min i j) (min (n - 1 - i) (n - 1 - j))

/-- Number of cells in the outer `k` rings of an `n × n` matrix. -/
def sqBase (n k : ℕ) : ℕ := n * n - (n - 2 * k) * (n - 2 * k)

/-- Invariant of the `while` loop after `k` passes: boundaries have moved
in by `k`, `current` sits past the `sqBase n k` cells already written, the
matrix is still `n × n`, the outer `k` rings hold their spiral values and
the inner square is still zero. -/
def ringInv (n k : ℕ) (st : SpiralState) : Prop :=
  st.top = (k : ℤ) ∧
  st.left = (k : ℤ) ∧
  st.bottom = (n : ℤ) - 1 - k ∧
  st.right = (n : ℤ) - 1 - k ∧
  st.current = sqBase n k + 1 ∧
  st.matrix.length = n ∧
  (∀ row ∈ st.matrix, row.length = n) ∧
  (∀ i j, i < n → j < n → ringOf n i j < k →
    matEntry st.matrix i j = spiralValue n i j) ∧
  (∀ i j, i < n → j < n → k ≤ ringOf n i j → matEntry st.matrix i j = 0)

/-! #### Theorems -/

theorem getD_mem_of_lt {α : Type} (l : List α) (i : ℕ) (d : α)
    (h : i < l.length) : l.getD i d ∈ l := by
  rw [List.getD_eq_getElem?_getD, List.getElem?_eq_getElem h]
  exact List.getElem_mem h

theorem getD_eq_default_of_le {α : Type} (l : List α) (i : ℕ) (d : α)
    (h : l.length ≤ i) : l.getD i d = d := by
  rw [List.getD_eq_getElem?_getD, List.getElem?_eq_none h]
  rfl

/-- **C4.** `minTimeToVisitAllPoints` returns the sum over consecutive
pairs of points of the chebyshev distance `max(|x2-x1|, |y2-y1|)`, and in
particular returns `7` on `[[1,1],[3,4],[-1,0]]`. -/
theorem minTimeToVisitAllPoints_correct :
    (∀ points : List (ℤ × ℤ),
      minTimeToVisitAllPoints points =
        ((points.zip points.tail).map fun pq =>
          max |pq.2.1 - pq.1.1| |pq.2.2 - pq.1.2|).sum) ∧
    minTimeToVisitAllPoints [(1, 1), (3, 4), (-1, 0)] = 7 := by
  constructor
  · have key : ∀ (rest : List (ℤ × ℤ)) (prev : ℤ × ℤ) (acc : ℤ),
        minTimeGo prev rest acc =
          acc + (((prev :: rest).zip rest).map fun pq =>
            max |pq.2.1 - pq.1.1| |pq.2.2 - pq.1.2|).sum := by
      intro rest
      induction rest with
      | nil => intro prev acc; simp [minTimeGo]
      | cons q rest ih =>
        intro prev acc
        simp only [minTimeGo, ih q, List.zip_cons_cons, List.map_cons,
          List.sum_cons]
        ring
    intro points
    cases points with
    | nil => simp [minTimeToVisitAllPoints]
    | cons p rest =>
      have h := key rest p 0
      simpa [minTimeToVisitAllPoints, List.tail] using h
  · decide

/-- **C10.** `RiskManager.size_position` is bounded by `max_position` and,
for nonnegative realized volatility, strictly positive whenever
`vol_target` and `max_position` are positive. -/
theorem size_position_bounds (rm : RiskManager) (realized_vol : ℚ)
    (hv : 0 ≤ realized_vol) :
    rm.size_position realized_vol ≤ rm.max_position ∧
    (0 < rm.vol_target → 0 < rm.max_position →
      0 < rm.size_position realized_vol) := by
  constructor
  · exact min_le_right _ _
  · intro ht hm
    have hden : 0 < realized_vol + 1 / 100000000 := by linarith
    exact lt_min (div_pos ht hden) hm

/-- Witness for **C10** at the constructor defaults and zero volatility. -/
theorem size_position_bounds_witness :
    RiskManager.size_position ⟨1, 2 / 100, -(5 / 100)⟩ 0 ≤ 1 ∧
    0 < RiskManager.size_position ⟨1, 2 / 100, -(5 / 100)⟩ 0 :=
  ⟨(size_position_bounds ⟨1, 2 / 100, -(5 / 100)⟩ 0 le_rfl).1,
    (size_position_bounds ⟨1, 2 / 100, -(5 / 100)⟩ 0 le_rfl).2
      (by norm_num) (by norm_num)⟩

/-- **C7** (code bug).  `black_scholes` does not price with its
strike-price argument `X`: the body reads the notebook global `K`, so the
result is the same for every value of `X`.  In particular, with the
notebook's globals (`K = 100`) the call at `X = 90` and at `X = 110`
returns the identical price, while the Black-Scholes closed form genuinely
depends on the strike. -/
theorem black_scholes_ignores_X :
    (∀ (P : BSPrims) (K S X1 X2 T r sigma : ℚ) (option_type : String),
      black_scholes P K S X1 T r sigma option_type =
        black_scholes P K S X2 T r sigma option_type) ∧
    (∀ P : BSPrims,
      black_scholes P 100 100 90 1 (5 / 100) (2 / 10) "call" =
        black_scholes P 100 100 110 1 (5 / 100) (2 / 10) "call") :=
  ⟨fun _ _ _ _ _ _ _ _ _ => rfl, fun _ => rfl⟩

/-- **C8.** `monte_carlo_option` reseeds the global generator with seed 42
on entry, so the price it returns is independent of the generator state at
call time: two calls with identical arguments return the same price no
matter what random draws happened in between. -/
theorem monte_carlo_option_deterministic {σ : Type} (P : MCPrims)
    (R : NumpyRNG σ) (s1 s2 : σ) (S K T r sigma : ℚ)
    (num_simulations : ℕ) (option_type : String) :
    (monte_carlo_option P R s1 S K T r sigma num_simulations option_type).1 =
      (monte_carlo_option P R s2 S K T r sigma num_simulations
        option_type).1 :=
  rfl

/-- **C6** (code bug).  On the file's own documented example grid
`[[2,1,1],[1,1,0],[0,1,1]]` (expected output `4` per the problem statement
and the trailing `console.log` comment), `orangesRotting` returns
`undefined` because the search loop was never finished. -/
theorem orangesRotting_example_undefined :
    orangesRotting (some [[2, 1, 1], [1, 1, 0], [0, 1, 1]]) = none := by
  decide

/-- **C9.** The early returns of `orangesRotting`: a missing grid or a grid
with zero rows yields `-1`; any non-empty grid with no cell equal to `1`
yields `0` before the search loop runs. -/
theorem orangesRotting_early_returns :
    orangesRotting none = some (-1) ∧
    orangesRotting (some []) = some (-1) ∧
    ∀ g : List (List ℕ), g ≠ [] → (∀ row ∈ g, ∀ v ∈ row, v ≠ 1) →
      orangesRotting (some g) = some 0 := by
  refine ⟨rfl, rfl, ?_⟩
  intro g hne hfresh
  have hlen : ¬ g.length = 0 := by simpa [List.length_eq_zero] using hne
  have hcount : countFresh g g.length (g.getD 0 []).length = 0 := by
    unfold countFresh
    apply List.sum_eq_zero
    intro x hx
    simp only [List.mem_map, List.mem_range] at hx
    obtain ⟨r, hr, rfl⟩ := hx
    apply List.countP_eq_zero.2
    intro c _
    have hrow : g.getD r [] ∈ g := getD_mem_of_lt g r [] hr
    by_cases hc : c < (g.getD r []).length
    · have hmem : (g.getD r []).getD c 0 ∈ g.getD r [] :=
        getD_mem_of_lt _ c 0 hc
      simpa using hfresh _ hrow _ hmem
    · have h0 : (g.getD r []).getD c 0 = 0 :=
        getD_eq_default_of_le _ c 0 (le_of_not_lt hc)
      simp only [List.getD_eq_getElem?_getD] at h0
      simp [h0]
  simp only [orangesRotting]
  rw [if_neg hlen, if_pos hcount]

/-- Witness for **C9** on the concrete fresh-free grid `[[2,0],[0,2]]`. -/
theorem orangesRotting_early_returns_witness :
    orangesRotting (some [[2, 0], [0, 2]]) = some 0 :=
  orangesRotting_early_returns.2.2 [[2, 0], [0, 2]] (by decide) (by decide)

/-- **C3** (counterexample).  For the state sequence `[0, 0]` with
`num_states = 2` (two states, state `1` never occurs), row `1` of the count
matrix sums to `0`, so `estimate_transition_matrix` divides that row by
zero and the row does not sum to `1`. -/
theorem estimate_transition_matrix_zero_divisor :
    transitionRowSum [0, 0] 2 1 = 0 ∧
    ∑ j ∈ Finset.range 2, estimate_transition_matrix [0, 0] 2 1 j ≠ 1 := by
  have h00 : transitionCounts [0, 0] 1 0 = 0 := by decide
  have h01 : transitionCounts [0, 0] 1 1 = 0 := by decide
  constructor
  · simp [transitionRowSum, Finset.sum_range_succ, h00, h01]
  · simp [estimate_transition_matrix, transitionRowSum,
      Finset.sum_range_succ, h00, h01]

/-- Every state occurring in `l.dropLast` starts some adjacent pair of `l`,
and the successor state is itself an element of `l`. -/
theorem pair_mem_zip_of_mem_dropLast (l : List ℕ) (i : ℕ)
    (h : i ∈ l.dropLast) : ∃ j, (i, j) ∈ l.zip l.tail ∧ j ∈ l := by
  induction l with
  | nil => simp at h
  | cons a t ih =>
    cases t with
    | nil => simp at h
    | cons b t2 =>
      rw [List.dropLast_cons₂, List.mem_cons] at h
      rcases h with h | h
      · subst h
        exact ⟨b, by simp, by simp⟩
      · obtain ⟨j, hzip, hjl⟩ := ih h
        have hzip2 : (i, j) ∈ (b :: t2).zip t2 := by simpa using hzip
        exact ⟨j, by simp [hzip2], List.mem_cons_of_mem _ hjl⟩

/-- **C3** (amended).  If every state below `num_states` occurs among
`states[:-1]` (and all states are in range), then every row divisor of
`estimate_transition_matrix` is nonzero and every row of the result sums
to `1`. -/
theorem estimate_transition_matrix_rows_sum_one (states : List ℕ) (n : ℕ)
    (hlen : 2 ≤ states.length) (hmem : ∀ s ∈ states, s < n)
    (hall : ∀ s < n, s ∈ states.dropLast) :
    ∀ i < n, transitionRowSum states n i ≠ 0 ∧
      ∑ j ∈ Finset.range n, estimate_transition_matrix states n i j = 1 := by
  intro i hi
  obtain ⟨j0, hzip, hj0l⟩ := pair_mem_zip_of_mem_dropLast states i (hall i hi)
  have hj0 : j0 < n := hmem j0 hj0l
  have hcount : 0 < transitionCounts states i j0 :=
    List.count_pos_iff.2 hzip
  have hpos : 0 < transitionRowSum states n i := by
    unfold transitionRowSum
    have h1 : (0 : ℚ) < (transitionCounts states i j0 : ℚ) := by
      exact_mod_cast hcount
    refine lt_of_lt_of_le h1 ?_
    exact Finset.single_le_sum
      (f := fun j => (transitionCounts states i j : ℚ))
      (fun k _ => by positivity) (Finset.mem_range.2 hj0)
  refine ⟨ne_of_gt hpos, ?_⟩
  unfold estimate_transition_matrix
  rw [← Finset.sum_div]
  exact div_self (ne_of_gt hpos)

/-- Witness for **C3 amended** on `states = [0, 1, 0]`, `num_states = 2`,
row `0`. -/
theorem estimate_transition_matrix_rows_sum_one_witness :
    transitionRowSum [0, 1, 0] 2 0 ≠ 0 ∧
    ∑ j ∈ Finset.range 2, estimate_transition_matrix [0, 1, 0] 2 0 j = 1 :=
  estimate_transition_matrix_rows_sum_one [0, 1, 0] 2 (by decide)
    (by decide) (by decide) 0 (by decide)

/-! #### Forward recurrence (C2) -/

theorem range_map_getD (n : ℕ) (f : ℕ → ℚ) (j : ℕ) (hj : j < n) :
    ((List.range n).map f).getD j 0 = f j := by
  rw [List.getD_eq_getElem?_getD, List.getElem?_map, List.getElem?_range hj]
  rfl

theorem forwardAux_getD_zero (m : HiddenMarkovModel) (row : List ℚ)
    (rest : List ℕ) : (m.forwardAux row rest).getD 0 [] = row := by
  cases rest <;> rfl

theorem forwardAux_getD_succ (m : HiddenMarkovModel) :
    ∀ (rest : List ℕ) (row : List ℚ) (t : ℕ), t < rest.length →
      (m.forwardAux row rest).getD (t + 1) [] =
        m.forwardStep ((m.forwardAux row rest).getD t []) (rest.getD t 0) := by
  intro rest
  induction rest with
  | nil =>
    intro row t ht
    simp at ht
  | cons o rest2 ih =>
    intro row t ht
    cases t with
    | zero =>
      show (m.forwardAux (m.forwardStep row o) rest2).getD 0 [] = _
      rw [forwardAux_getD_zero]
      rfl
    | succ t2 =>
      have ht2 : t2 < rest2.length := by
        simp only [List.length_cons] at ht
        omega
      show (m.forwardAux (m.forwardStep row o) rest2).getD (t2 + 1) [] = _
      rw [ih (m.forwardStep row o) t2 ht2]
      rfl

theorem forwardStep_getD (m : HiddenMarkovModel) (prev : List ℚ) (o j : ℕ)
    (hj : j < m.num_hidden_states) :
    (m.forwardStep prev o).getD j 0 =
      (∑ i ∈ Finset.range m.num_hidden_states,
        prev.getD i 0 * m.transition_probs i j) * m.emission_probs j o :=
  range_map_getD _ _ j hj

/-- **C2.** For a non-empty observation sequence over the model's bins,
`forward` returns the textbook forward variables:
`alpha[0, j] = initial_probs[j] * emission_probs[j, o[0]]` and, for
`1 ≤ t < T`,
`alpha[t, j] = (sum_i alpha[t-1, i] * transition_probs[i, j]) *
emission_probs[j, o[t]]`. -/
theorem forward_recurrence (m : HiddenMarkovModel) (observations : List ℕ)
    (hne : observations ≠ [])
    (hbins : ∀ o ∈ observations, o < m.num_observation_bins) :
    (∀ j < m.num_hidden_states,
      ((m.forward observations).getD 0 []).getD j 0 =
        m.initial_probs j * m.emission_probs j (observations.getD 0 0)) ∧
    (∀ t, 1 ≤ t → t < observations.length → ∀ j < m.num_hidden_states,
      ((m.forward observations).getD t []).getD j 0 =
        (∑ i ∈ Finset.range m.num_hidden_states,
          ((m.forward observations).getD (t - 1) []).getD i 0 *
            m.transition_probs i j) *
          m.emission_probs j (observations.getD t 0)) := by
  obtain ⟨o0, rest, rfl⟩ := List.exists_cons_of_ne_nil hne
  have hforward : m.forward (o0 :: rest) =
      m.forwardAux ((List.range m.num_hidden_states).map fun j =>
        m.initial_probs j * m.emission_probs j o0) rest := rfl
  constructor
  · intro j hj
    rw [hforward, forwardAux_getD_zero, range_map_getD _ _ j hj]
    rfl
  · intro t h1 ht j hj
    obtain ⟨t2, rfl⟩ : ∃ t2, t = t2 + 1 := ⟨t - 1, by omega⟩
    have hlt : t2 < rest.length := by
      simp only [List.length_cons] at ht
      omega
    have key := forwardAux_getD_succ m rest
      ((List.range m.num_hidden_states).map fun j =>
        m.initial_probs j * m.emission_probs j o0) t2 hlt
    rw [hforward, key, forwardStep_getD m _ _ j hj]
    simp only [Nat.add_sub_cancel, List.getD_cons_succ]

/-! #### Concrete one-state model used by the witnesses -/

theorem hmmOne_forward :
    (HiddenMarkovModel.mkUniform 1 1).forward [0, 0] = [[1], [1]] := by
  norm_num [HiddenMarkovModel.forward, HiddenMarkovModel.forwardAux,
    HiddenMarkovModel.forwardStep, HiddenMarkovModel.mkUniform,
    Finset.sum_range_succ, List.range_succ]

theorem hmmOne_backward :
    (HiddenMarkovModel.mkUniform 1 1).backward [0, 0] = [[1], [1]] := by
  norm_num [HiddenMarkovModel.backward, HiddenMarkovModel.mkUniform,
    Finset.sum_range_succ, List.range_succ]

/-- Witness for **C2** on the uniform one-state model and `[0, 0]`. -/
theorem forward_recurrence_witness :
    (((HiddenMarkovModel.mkUniform 1 1).forward [0, 0]).getD 0 []).getD 0 0 =
      (HiddenMarkovModel.mkUniform 1 1).initial_probs 0 *
        (HiddenMarkovModel.mkUniform 1 1).emission_probs 0
          (([0, 0] : List ℕ).getD 0 0) :=
  (forward_recurrence (HiddenMarkovModel.mkUniform 1 1) [0, 0] (by decide)
    (by decide)).1 0 (by decide)

/-! #### Baum-Welch invariants (C1) -/

theorem baumWelchStep_invariants (m : HiddenMarkovModel)
    (observations : List ℕ) (hT : 2 ≤ observations.length)
    (hden : m.denomsNonzero observations) :
    (m.baumWelchStep observations).probInvariants := by
  obtain ⟨hxi, htrans, hemis⟩ := hden
  refine ⟨?_, ?_, ?_⟩
  · intro i hi
    show ∑ j ∈ Finset.range m.num_hidden_states,
      m.transNumer observations i j / m.transDenom observations i = 1
    rw [← Finset.sum_div]
    exact div_self (htrans i hi)
  · intro i hi
    show ∑ l ∈ Finset.range m.num_observation_bins,
      m.emisNumer observations i l / m.emisDenom observations i = 1
    rw [← Finset.sum_div]
    exact div_self (hemis i hi)
  · have h0 : m.xiDenom observations 0 ≠ 0 :=
      hxi 0 (Finset.mem_range.2 (by omega))
    show ∑ i ∈ Finset.range m.num_hidden_states,
      m.gammaVal observations 0 i = 1
    have hsum : ∑ i ∈ Finset.range m.num_hidden_states,
        ∑ j ∈ Finset.range m.num_hidden_states,
          ((m.forward observations).getD 0 []).getD i 0 *
            m.transition_probs i j *
            m.emission_probs j (observations.getD (0 + 1) 0) *
            ((m.backward observations).getD (0 + 1) []).getD j 0
        = m.xiDenom observations 0 := by
      rw [Finset.sum_comm]
      simp only [HiddenMarkovModel.xiDenom]
      refine Finset.sum_congr rfl fun j _ => ?_
      rw [Finset.sum_mul, Finset.sum_mul]
    calc ∑ i ∈ Finset.range m.num_hidden_states,
          m.gammaVal observations 0 i
        = (∑ i ∈ Finset.range m.num_hidden_states,
            ∑ j ∈ Finset.range m.num_hidden_states,
              ((m.forward observations).getD 0 []).getD i 0 *
                m.transition_probs i j *
                m.emission_probs j (observations.getD (0 + 1) 0) *
                ((m.backward observations).getD (0 + 1) []).getD j 0) /
            m.xiDenom observations 0 := by
          simp only [HiddenMarkovModel.gammaVal, HiddenMarkovModel.xi,
            ← Finset.sum_div]
      _ = m.xiDenom observations 0 / m.xiDenom observations 0 := by
          rw [hsum]
      _ = 1 := div_self h0

theorem baum_welch_train_succ (m : HiddenMarkovModel)
    (observations : List ℕ) :
    ∀ k, m.baum_welch_train observations (k + 1) =
      (m.baum_welch_train observations k).baumWelchStep observations := by
  intro k
  induction k generalizing m with
  | zero => rfl
  | succ k2 ih =>
    show (m.baumWelchStep observations).baum_welch_train observations
      (k2 + 1) = _
    rw [ih (m.baumWelchStep observations)]
    rfl

/-- **C1.** After every iteration of `baum_welch_train` on an observation
sequence of length at least 2 over the model's bins, provided every
normalization denominator met so far is nonzero, the probability-matrix
invariants hold: each `transition_probs` row, each `emission_probs` row
and `initial_probs` sum to 1. -/
theorem baum_welch_train_invariants (m : HiddenMarkovModel)
    (observations : List ℕ) (n_iter : ℕ) (hT : 2 ≤ observations.length)
    (hbins : ∀ o ∈ observations, o < m.num_observation_bins)
    (hden : ∀ k < n_iter,
      (m.baum_welch_train observations k).denomsNonzero observations) :
    ∀ k < n_iter,
      (m.baum_welch_train observations (k + 1)).probInvariants := by
  intro k hk
  rw [baum_welch_train_succ]
  exact baumWelchStep_invariants _ observations hT (hden k hk)

theorem hmmOne_denoms :
    (HiddenMarkovModel.mkUniform 1 1).denomsNonzero [0, 0] := by
  refine ⟨?_, ?_, ?_⟩
  · intro t ht
    have ht0 : t = 0 := by
      simp only [List.length_cons, List.length_nil, Finset.mem_range] at ht
      omega
    subst ht0
    simp only [HiddenMarkovModel.xiDenom, hmmOne_forward, hmmOne_backward]
    norm_num [HiddenMarkovModel.mkUniform, Finset.sum_range_succ]
  · intro i hi
    have hi0 : i = 0 := by
      simp only [HiddenMarkovModel.mkUniform, Finset.mem_range] at hi
      omega
    subst hi0
    simp only [HiddenMarkovModel.transDenom, HiddenMarkovModel.transNumer,
      HiddenMarkovModel.xi, HiddenMarkovModel.xiDenom, hmmOne_forward,
      hmmOne_backward]
    norm_num [HiddenMarkovModel.mkUniform, Finset.sum_range_succ]
  · intro i hi
    have hi0 : i = 0 := by
      simp only [HiddenMarkovModel.mkUniform, Finset.mem_range] at hi
      omega
    subst hi0
    simp only [HiddenMarkovModel.emisDenom, HiddenMarkovModel.emisNumer,
      HiddenMarkovModel.gammaExt, HiddenMarkovModel.gammaVal,
      HiddenMarkovModel.xi, HiddenMarkovModel.xiDenom, hmmOne_forward,
      hmmOne_backward]
    norm_num [HiddenMarkovModel.mkUniform, Finset.sum_range_succ]

/-- Witness for **C1** on the uniform one-state model, `[0, 0]`, one
iteration. -/
theorem baum_welch_train_invariants_witness :
    ((HiddenMarkovModel.mkUniform 1 1).baum_welch_train [0, 0]
      1).probInvariants :=
  baum_welch_train_invariants (HiddenMarkovModel.mkUniform 1 1) [0, 0] 1
    (by decide) (by decide)
    (fun k hk => by
      have hk0 : k = 0 := by omega
      subst hk0
      exact hmmOne_denoms)
    0 (by omega)

/-! #### Spiral matrix: matrix update lemmas -/

theorem getD_set_ne {α : Type} (l : List α) (m k : ℕ) (a d : α)
    (h : m ≠ k) : (l.set m a).getD k d = l.getD k d := by
  rw [List.getD_eq_getElem?_getD, List.getD_eq_getElem?_getD,
    List.getElem?_set_ne h]

theorem getD_set_self {α : Type} (l : List α) (m : ℕ) (a d : α)
    (h : m < l.length) : (l.set m a).getD m d = a := by
  rw [List.getD_eq_getElem?_getD, List.getElem?_set_self h]
  rfl

theorem length_matSet (mat : List (List ℕ)) (r c : ℤ) (v : ℕ) :
    (matSet mat r c v).length = mat.length := by
  unfold matSet
  split <;> simp

theorem rows_matSet (mat : List (List ℕ)) (r c : ℤ) (v : ℕ) (n : ℕ)
    (hrow : ∀ row ∈ mat, row.length = n) :
    ∀ row ∈ matSet mat r c v, row.length = n := by
  unfold matSet
  split
  · by_cases hr : r.toNat < mat.length
    · intro row hmem
      rcases List.mem_or_eq_of_mem_set hmem with h | h
      · exact hrow row h
      · subst h
        rw [List.length_set]
        exact hrow _ (getD_mem_of_lt mat r.toNat [] hr)
    · rw [List.set_eq_of_length_le (le_of_not_lt hr)]
      exact hrow
  · exact hrow

theorem matEntry_matSet_ne (mat : List (List ℕ)) (r c : ℤ) (v : ℕ)
    (i j : ℕ) (h : r ≠ (i : ℤ) ∨ c ≠ (j : ℤ)) :
    matEntry (matSet mat r c v) i j = matEntry mat i j := by
  unfold matSet matEntry
  split
  case isFalse => rfl
  case isTrue hpos =>
    by_cases hri : r.toNat = i
    · have hrz : r = (i : ℤ) := by omega
      have hcj : c ≠ (j : ℤ) := by
        rcases h with h | h
        · exact absurd hrz h
        · exact h
      have hcn : c.toNat ≠ j := by omega
      subst hri
      by_cases hlen : r.toNat < mat.length
      · rw [getD_set_self mat r.toNat _ [] hlen, getD_set_ne _ _ _ _ _ hcn]
      · rw [List.set_eq_of_length_le (le_of_not_lt hlen)]
    · rw [getD_set_ne mat r.toNat i _ [] hri]

theorem matEntry_matSet_self (mat : List (List ℕ)) (i j : ℕ) (v : ℕ)
    (hi : i < mat.length) (hj : j < (mat.getD i []).length) :
    matEntry (matSet mat (i : ℤ) (j : ℤ) v) i j = v := by
  unfold matSet matEntry
  rw [if_pos ⟨Int.natCast_nonneg i, Int.natCast_nonneg j⟩]
  simp only [Int.toNat_natCast]
  rw [getD_set_self mat i _ [] hi, getD_set_self _ j _ 0 hj]

/-! #### Spiral matrix: fillCells and writeCells -/

theorem fillCells_eq_writeCells (cells : List (ℤ × ℤ)) :
    ∀ (mat : List (List ℕ)) (current maxN : ℕ),
      current + cells.length ≤ maxN + 1 →
      fillCells mat cells current maxN =
        (writeCells mat cells current, current + cells.length) := by
  induction cells with
  | nil =>
    intro mat current maxN hle
    simp [fillCells, writeCells]
  | cons rc rest ih =>
    intro mat current maxN hle
    have hcur : current ≤ maxN := by
      simp only [List.length_cons] at hle
      omega
    have hrest : current + 1 + rest.length ≤ maxN + 1 := by
      simp only [List.length_cons] at hle
      omega
    simp only [fillCells, if_pos hcur, writeCells,
      ih (matSet mat rc.1 rc.2 current) (current + 1) maxN hrest,
      List.length_cons]
    simp only [Prod.mk.injEq, true_and]
    omega

theorem length_writeCells (cells : List (ℤ × ℤ)) :
    ∀ (mat : List (List ℕ)) (current : ℕ),
      (writeCells mat cells current).length = mat.length := by
  induction cells with
  | nil => intro mat current; rfl
  | cons rc rest ih =>
    intro mat current
    rw [writeCells, ih, length_matSet]

theorem rows_writeCells (cells : List (ℤ × ℤ)) :
    ∀ (mat : List (List ℕ)) (current n : ℕ),
      (∀ row ∈ mat, row.length = n) →
      ∀ row ∈ writeCells mat cells current, row.length = n := by
  induction cells with
  | nil => intro mat current n h; exact h
  | cons rc rest ih =>
    intro mat current n h
    exact ih _ _ n (rows_matSet mat rc.1 rc.2 current n h)

theorem writeCells_append (a b : List (ℤ × ℤ)) :
    ∀ (mat : List (List ℕ)) (current : ℕ),
      writeCells mat (a ++ b) current =
        writeCells (writeCells mat a current) b (current + a.length) := by
  induction a with
  | nil => intro mat current; rfl
  | cons rc rest ih =>
    intro mat current
    show writeCells (matSet mat rc.1 rc.2 current) (rest ++ b)
      (current + 1) = _
    rw [ih, writeCells]
    congr 1
    simp only [List.length_cons]
    omega

theorem matEntry_writeCells_notMem (cells : List (ℤ × ℤ)) :
    ∀ (mat : List (List ℕ)) (current : ℕ) (i j : ℕ),
      ((i : ℤ), (j : ℤ)) ∉ cells →
      matEntry (writeCells mat cells current) i j = matEntry mat i j := by
  induction cells with
  | nil => intro mat current i j _; rfl
  | cons rc rest ih =>
    intro mat current i j hnot
    rw [writeCells, ih _ _ i j (fun hmem => hnot (List.mem_cons_of_mem _ hmem))]
    apply matEntry_matSet_ne
    by_contra hcon
    push_neg at hcon
    apply hnot
    rw [List.mem_cons]
    left
    obtain ⟨h1, h2⟩ := hcon
    cases rc with
    | mk a b =>
      simp only [Prod.mk.injEq]
      exact ⟨h1.symm, h2.symm⟩

theorem matEntry_writeCells_range (g : ℕ → ℤ × ℤ) (L p : ℕ)
    (mat : List (List ℕ)) (current : ℕ) (i j n : ℕ)
    (hp : p < L) (hgp : g p = ((i : ℤ), (j : ℤ)))
    (huniq : ∀ q < L, q ≠ p → g q ≠ ((i : ℤ), (j : ℤ)))
    (hlen : mat.length = n) (hrows : ∀ row ∈ mat, row.length = n)
    (hi : i < n) (hj : j < n) :
    matEntry (writeCells mat ((List.range L).map g) current) i j =
      current + p := by
  have hL : L = (p + 1) + (L - (p + 1)) := by omega
  have hdecomp : (List.range L).map g =
      ((List.range p).map g) ++
        (((i : ℤ), (j : ℤ)) ::
          ((List.range (L - (p + 1))).map fun q => g (p + 1 + q))) := by
    conv_lhs => rw [hL]
    rw [List.range_add, List.range_succ]
    simp only [List.map_append, List.map_map, List.map_cons]
    rw [hgp]
    simp [Function.comp]
  rw [hdecomp, writeCells_append]
  have hlenA : ((List.range p).map g).length = p := by simp
  rw [hlenA, writeCells]
  have hnotB : ((i : ℤ), (j : ℤ)) ∉
      (List.range (L - (p + 1))).map fun q => g (p + 1 + q) := by
    intro hmem
    simp only [List.mem_map, List.mem_range] at hmem
    obtain ⟨q, hq, hgq⟩ := hmem
    exact huniq (p + 1 + q) (by omega) (by omega) hgq
  rw [matEntry_writeCells_notMem _ _ _ i j hnotB]
  have hlenW : (writeCells mat ((List.range p).map g) current).length = n :=
    by rw [length_writeCells, hlen]
  have hrowsW : ∀ row ∈ writeCells mat ((List.range p).map g) current,
      row.length = n := rows_writeCells _ _ _ n hrows
  apply matEntry_matSet_self
  · omega
  · have := hrowsW _ (getD_mem_of_lt _ i [] (by omega))
    omega

/-! #### Spiral matrix: spec value arithmetic -/

theorem spiral_arith (N A B V m : ℕ) (h1 : A ≤ N) (h2 : A = B + 4 * m) :
    N - A + (4 * m + V) = N - B + V := by omega

theorem spiralValue_shift (n : ℕ) :
    ∀ k i j, i < n - 2 * k → j < n - 2 * k →
      spiralValue n (k + i) (k + j) =
        sqBase n k + spiralValue (n - 2 * k) i j := by
  intro k
  induction k with
  | zero =>
    intro i j hi hj
    simp [sqBase]
  | succ k2 ih =>
    intro i j hi hj
    have h1 : 1 + i < n - 2 * k2 := by omega
    have h2 : 1 + j < n - 2 * k2 := by omega
    obtain ⟨M2, hM⟩ : ∃ M2, n - 2 * k2 = M2 + 1 :=
      ⟨n - 2 * k2 - 1, by omega⟩
    have harg : k2 + 1 + i = k2 + (1 + i) := by omega
    have harg2 : k2 + 1 + j = k2 + (1 + j) := by omega
    rw [harg, harg2, ih (1 + i) (1 + j) h1 h2, hM]
    have c1 : ¬(1 + i = 0) := by omega
    have c2 : ¬(1 + j = M2) := by omega
    have c3 : ¬(1 + i = M2) := by omega
    have c4 : ¬(1 + j = 0) := by omega
    simp only [spiralValue, if_neg c1, if_neg c2, if_neg c3, if_neg c4,
      Nat.add_sub_cancel_left]
    have e2 : n - 2 * (k2 + 1) = M2 - 1 := by omega
    rw [e2]
    have hAN : (M2 + 1) * (M2 + 1) ≤ n * n :=
      Nat.mul_le_mul (by omega) (by omega)
    have hAB : (M2 + 1) * (M2 + 1) = (M2 - 1) * (M2 - 1) + 4 * M2 := by
      obtain ⟨M3, rfl⟩ : ∃ M3, M2 = M3 + 1 := ⟨M2 - 1, by omega⟩
      simp only [Nat.add_sub_cancel]
      ring
    unfold sqBase
    rw [hM, e2]
    exact spiral_arith (n * n) _ _ _ M2 hAN hAB

/-! #### Spiral matrix: ring segments -/

theorem ring_card_le (m : ℕ) (h : 1 ≤ m) :
    m + (m - 1) + (m - 1) + (m - 2) ≤ m * m := by
  rcases Nat.lt_or_ge m 2 with h2 | h2
  · have h1 : m = 1 := by omega
    subst h1
    simp
  · obtain ⟨m2, rfl⟩ : ∃ m2, m = m2 + 2 := ⟨m - 2, by omega⟩
    have hsq : (m2 + 2) * (m2 + 2) = m2 * m2 + 4 * m2 + 4 := by ring
    omega

theorem sq_peel (m : ℕ) (h : 2 ≤ m) :
    m * m = (m - 2) * (m - 2) + 4 * m - 4 := by
  obtain ⟨m2, rfl⟩ : ∃ m2, m = m2 + 2 := ⟨m - 2, by omega⟩
  simp only [Nat.add_sub_cancel]
  have hsq : (m2 + 2) * (m2 + 2) = m2 * m2 + 4 * m2 + 4 := by ring
  omega

theorem mem_topRow_seg (n k i j : ℕ)
    (h : ((i : ℤ), (j : ℤ)) ∈
      topRowCells (k : ℤ) (k : ℤ) ((n : ℤ) - 1 - (k : ℤ))) :
    i = k ∧ k ≤ j ∧ j + k + 1 ≤ n := by
  simp only [topRowCells, List.mem_map, List.mem_range, Prod.mk.injEq] at h
  obtain ⟨c, hc, h1, h2⟩ := h
  omega

theorem mem_rightCol_seg (n k i j : ℕ)
    (h : ((i : ℤ), (j : ℤ)) ∈
      rightColCells ((n : ℤ) - 1 - (k : ℤ)) ((k : ℤ) + 1)
        ((n : ℤ) - 1 - (k : ℤ))) :
    j + k + 1 = n ∧ k + 1 ≤ i ∧ i + k + 1 ≤ n := by
  simp only [rightColCells, List.mem_map, List.mem_range, Prod.mk.injEq] at h
  obtain ⟨c, hc, h1, h2⟩ := h
  omega

theorem mem_bottomRow_seg (n k i j : ℕ)
    (h : ((i : ℤ), (j : ℤ)) ∈
      bottomRowCells ((n : ℤ) - 1 - (k : ℤ)) ((n : ℤ) - 1 - (k : ℤ) - 1)
        (k : ℤ)) :
    i + k + 1 = n ∧ k ≤ j ∧ j + k + 2 ≤ n := by
  simp only [bottomRowCells, List.mem_map, List.mem_range, Prod.mk.injEq] at h
  obtain ⟨c, hc, h1, h2⟩ := h
  omega

theorem mem_leftCol_seg (n k i j : ℕ)
    (h : ((i : ℤ), (j : ℤ)) ∈
      leftColCells (k : ℤ) ((n : ℤ) - 1 - (k : ℤ) - 1) ((k : ℤ) + 1)) :
    j = k ∧ k + 1 ≤ i ∧ i + k + 2 ≤ n := by
  simp only [leftColCells, List.mem_map, List.mem_range, Prod.mk.injEq] at h
  obtain ⟨c, hc, h1, h2⟩ := h
  omega

theorem topRow_seg_map (n k : ℕ) :
    topRowCells (k : ℤ) (k : ℤ) ((n : ℤ) - 1 - (k : ℤ)) =
      (List.range (n - 2 * k)).map
        (fun c : ℕ => ((k : ℤ), (k : ℤ) + (c : ℤ))) := by
  unfold topRowCells
  rw [show (((n : ℤ) - 1 - (k : ℤ)) + 1 - (k : ℤ)).toNat = n - 2 * k from
    by omega]

theorem rightCol_seg_map (n k : ℕ) :
    rightColCells ((n : ℤ) - 1 - (k : ℤ)) ((k : ℤ) + 1)
        ((n : ℤ) - 1 - (k : ℤ)) =
      (List.range (n - 2 * k - 1)).map
        (fun c : ℕ => ((k : ℤ) + 1 + (c : ℤ), (n : ℤ) - 1 - (k : ℤ))) := by
  unfold rightColCells
  rw [show (((n : ℤ) - 1 - (k : ℤ)) + 1 - ((k : ℤ) + 1)).toNat =
    n - 2 * k - 1 from by omega]

theorem bottomRow_seg_map (n k : ℕ) :
    bottomRowCells ((n : ℤ) - 1 - (k : ℤ)) ((n : ℤ) - 1 - (k : ℤ) - 1)
        (k : ℤ) =
      (List.range (n - 2 * k - 1)).map
        (fun c : ℕ => ((n : ℤ) - 1 - (k : ℤ),
          (n : ℤ) - 1 - (k : ℤ) - 1 - (c : ℤ))) := by
  unfold bottomRowCells
  rw [show (((n : ℤ) - 1 - (k : ℤ) - 1) + 1 - (k : ℤ)).toNat =
    n - 2 * k - 1 from by omega]

theorem leftCol_seg_map (n k : ℕ) :
    leftColCells (k : ℤ) ((n : ℤ) - 1 - (k : ℤ) - 1) ((k : ℤ) + 1) =
      (List.range (n - 2 * k - 2)).map
        (fun c : ℕ => ((n : ℤ) - 1 - (k : ℤ) - 1 - (c : ℤ), (k : ℤ))) := by
  unfold leftColCells
  rw [show (((n : ℤ) - 1 - (k : ℤ) - 1) + 1 - ((k : ℤ) + 1)).toNat =
    n - 2 * k - 2 from by omega]

/-! #### Spiral matrix: spec values on the outer ring -/

theorem spiralValue_top (m j : ℕ) (hm : 1 ≤ m) (hj : j < m) :
    spiralValue m 0 j = j + 1 := by
  obtain ⟨M, rfl⟩ : ∃ M, m = M + 1 := ⟨m - 1, by omega⟩
  simp [spiralValue]

theorem spiralValue_right (m i : ℕ) (h1 : 1 ≤ i) (hi : i < m) :
    spiralValue m i (m - 1) = (m - 1) + i + 1 := by
  obtain ⟨M, rfl⟩ : ∃ M, m = M + 1 := ⟨m - 1, by omega⟩
  have c1 : ¬(i = 0) := by omega
  simp only [spiralValue, if_neg c1, Nat.add_sub_cancel, if_true]

theorem spiralValue_bottom (m j : ℕ) (h2 : 2 ≤ m) (hj : j + 2 ≤ m) :
    spiralValue m (m - 1) j = 2 * (m - 1) + ((m - 1) - j) + 1 := by
  obtain ⟨M, rfl⟩ : ∃ M, m = M + 1 := ⟨m - 1, by omega⟩
  have c1 : ¬(M = 0) := by omega
  have c2 : ¬(j = M) := by omega
  simp only [spiralValue, if_neg c1, if_neg c2, Nat.add_sub_cancel,
    if_true]

theorem spiralValue_left (m i : ℕ) (h1 : 1 ≤ i) (hi : i + 2 ≤ m) :
    spiralValue m i 0 = 3 * (m - 1) + ((m - 1) - i) + 1 := by
  obtain ⟨M, rfl⟩ : ∃ M, m = M + 1 := ⟨m - 1, by omega⟩
  have c1 : ¬(i = 0) := by omega
  have c2 : ¬((0 : ℕ) = M) := by omega
  have c3 : ¬(i = M) := by omega
  simp only [spiralValue, if_neg c1, if_neg c2, if_neg c3,
    Nat.add_sub_cancel, if_true]

/-! #### Spiral matrix: one pass of the while loop fills one ring -/


/-! #### Spiral matrix: entry values written by each of the four loops -/

theorem topSeg_entry (n k i j : ℕ) (mat : List (List ℕ))
    (hlen : mat.length = n) (hrows : ∀ row ∈ mat, row.length = n)
    (hi : i < n) (hj : j < n) (hk2 : 2 * k + 1 ≤ n)
    (hik : i = k) (hjk : k ≤ j) (hjn : j + k + 1 ≤ n) :
    matEntry (writeCells mat
      (topRowCells (k : ℤ) (k : ℤ) ((n : ℤ) - 1 - (k : ℤ)))
      (sqBase n k + 1)) i j = spiralValue n i j := by
  rw [topRow_seg_map]
  rw [matEntry_writeCells_range
    (fun c : ℕ => ((k : ℤ), (k : ℤ) + (c : ℤ))) (n - 2 * k) (j - k)
    mat (sqBase n k + 1) i j n (by omega)
    (by simp only [Prod.mk.injEq]; omega)
    (by
      intro q hq hqp heq
      simp only [Prod.mk.injEq] at heq
      omega)
    hlen hrows hi hj]
  have hsh := spiralValue_shift n k 0 (j - k) (by omega) (by omega)
  rw [show k + 0 = i from by omega,
    show k + (j - k) = j from by omega] at hsh
  rw [hsh, spiralValue_top (n - 2 * k) (j - k) (by omega) (by omega)]
  omega

theorem rightSeg_entry (n k i j : ℕ) (mat : List (List ℕ))
    (hlen : mat.length = n) (hrows : ∀ row ∈ mat, row.length = n)
    (hi : i < n) (hj : j < n) (hk2 : 2 * k + 1 ≤ n)
    (hjn : j + k + 1 = n) (hik : k + 1 ≤ i) (hin : i + k + 1 ≤ n) :
    matEntry (writeCells mat
      (rightColCells ((n : ℤ) - 1 - (k : ℤ)) ((k : ℤ) + 1)
        ((n : ℤ) - 1 - (k : ℤ)))
      (sqBase n k + 1 + (n - 2 * k))) i j = spiralValue n i j := by
  rw [rightCol_seg_map]
  rw [matEntry_writeCells_range
    (fun c : ℕ => ((k : ℤ) + 1 + (c : ℤ), (n : ℤ) - 1 - (k : ℤ)))
    (n - 2 * k - 1) (i - (k + 1)) mat (sqBase n k + 1 + (n - 2 * k)) i j n
    (by omega)
    (by simp only [Prod.mk.injEq]; omega)
    (by
      intro q hq hqp heq
      simp only [Prod.mk.injEq] at heq
      omega)
    hlen hrows hi hj]
  have hsh := spiralValue_shift n k (i - k) (j - k) (by omega) (by omega)
  rw [show k + (i - k) = i from by omega,
    show k + (j - k) = j from by omega] at hsh
  rw [show j - k = n - 2 * k - 1 from by omega] at hsh
  have hv := spiralValue_right (n - 2 * k) (i - k) (by omega) (by omega)
  rw [hsh, hv]
  omega

theorem bottomSeg_entry (n k i j : ℕ) (mat : List (List ℕ))
    (hlen : mat.length = n) (hrows : ∀ row ∈ mat, row.length = n)
    (hi : i < n) (hj : j < n) (hk2 : 2 * k + 1 ≤ n)
    (hin : i + k + 1 = n) (hjk : k ≤ j) (hjn : j + k + 2 ≤ n) :
    matEntry (writeCells mat
      (bottomRowCells ((n : ℤ) - 1 - (k : ℤ))
        ((n : ℤ) - 1 - (k : ℤ) - 1) (k : ℤ))
      (sqBase n k + 1 + (n - 2 * k) + (n - 2 * k - 1))) i j =
      spiralValue n i j := by
  rw [bottomRow_seg_map]
  rw [matEntry_writeCells_range
    (fun c : ℕ => ((n : ℤ) - 1 - (k : ℤ),
      (n : ℤ) - 1 - (k : ℤ) - 1 - (c : ℤ)))
    (n - 2 * k - 1) (n - 2 - k - j) mat
    (sqBase n k + 1 + (n - 2 * k) + (n - 2 * k - 1)) i j n (by omega)
    (by simp only [Prod.mk.injEq]; omega)
    (by
      intro q hq hqp heq
      simp only [Prod.mk.injEq] at heq
      omega)
    hlen hrows hi hj]
  have hsh := spiralValue_shift n k (i - k) (j - k) (by omega) (by omega)
  rw [show k + (i - k) = i from by omega,
    show k + (j - k) = j from by omega] at hsh
  rw [show i - k = n - 2 * k - 1 from by omega] at hsh
  have hv := spiralValue_bottom (n - 2 * k) (j - k) (by omega) (by omega)
  rw [hsh, hv]
  omega

theorem leftSeg_entry (n k i j : ℕ) (mat : List (List ℕ))
    (hlen : mat.length = n) (hrows : ∀ row ∈ mat, row.length = n)
    (hi : i < n) (hj : j < n) (hk2 : 2 * k + 1 ≤ n)
    (hjk : j = k) (hik : k + 1 ≤ i) (hin : i + k + 2 ≤ n) :
    matEntry (writeCells mat
      (leftColCells (k : ℤ) ((n : ℤ) - 1 - (k : ℤ) - 1) ((k : ℤ) + 1))
      (sqBase n k + 1 + (n - 2 * k) + (n - 2 * k - 1) +
        (n - 2 * k - 1))) i j = spiralValue n i j := by
  rw [leftCol_seg_map]
  rw [matEntry_writeCells_range
    (fun c : ℕ => ((n : ℤ) - 1 - (k : ℤ) - 1 - (c : ℤ), (k : ℤ)))
    (n - 2 * k - 2) (n - 2 - k - i) mat
    (sqBase n k + 1 + (n - 2 * k) + (n - 2 * k - 1) + (n - 2 * k - 1))
    i j n (by omega)
    (by simp only [Prod.mk.injEq]; omega)
    (by
      intro q hq hqp heq
      simp only [Prod.mk.injEq] at heq
      omega)
    hlen hrows hi hj]
  have hsh := spiralValue_shift n k (i - k) (j - k) (by omega) (by omega)
  rw [show k + (i - k) = i from by omega,
    show k + (j - k) = j from by omega] at hsh
  rw [show j - k = 0 from by omega] at hsh
  have hv := spiralValue_left (n - 2 * k) (i - k) (by omega) (by omega)
  rw [hsh, hv]
  omega

/-! #### Spiral matrix: one pass of the while loop fills one ring -/

theorem spiralBody_ringInv (n k : ℕ) (st : SpiralState)
    (hk2 : 2 * k + 1 ≤ n) (hinv : ringInv n k st) :
    ringInv n (k + 1) (spiralBody st (n * n)) := by
  obtain ⟨mat, top, bot, left, right, cur⟩ := st
  obtain ⟨htop, hleft, hbot, hright, hcur, hlen, hrows, hfilled, hzero⟩ :=
    hinv
  dsimp only at htop hleft hbot hright hcur hlen hrows hfilled hzero
  subst htop hleft hbot hright hcur
  have hL1 : (topRowCells (k : ℤ) (k : ℤ)
      ((n : ℤ) - 1 - (k : ℤ))).length = n - 2 * k := by
    rw [topRow_seg_map]
    simp
  have hL2 : (rightColCells ((n : ℤ) - 1 - (k : ℤ)) ((k : ℤ) + 1)
      ((n : ℤ) - 1 - (k : ℤ))).length = n - 2 * k - 1 := by
    rw [rightCol_seg_map]
    simp
  have hL3 : (bottomRowCells ((n : ℤ) - 1 - (k : ℤ))
      ((n : ℤ) - 1 - (k : ℤ) - 1) (k : ℤ)).length = n - 2 * k - 1 := by
    rw [bottomRow_seg_map]
    simp
  have hL4 : (leftColCells (k : ℤ) ((n : ℤ) - 1 - (k : ℤ) - 1)
      ((k : ℤ) + 1)).length = n - 2 * k - 2 := by
    rw [leftCol_seg_map]
    simp
  have hmm2 : (n - 2 * k) * (n - 2 * k) ≤ n * n :=
    Nat.mul_le_mul (by omega) (by omega)
  have hcard := ring_card_le (n - 2 * k) (by omega)
  have hbase : sqBase n k = n * n - (n - 2 * k) * (n - 2 * k) := rfl
  have g1 : sqBase n k + 1 + (topRowCells (k : ℤ) (k : ℤ)
      ((n : ℤ) - 1 - (k : ℤ))).length ≤ n * n + 1 := by
    rw [hL1, hbase]
    omega
  have g2 : sqBase n k + 1 + (topRowCells (k : ℤ) (k : ℤ)
      ((n : ℤ) - 1 - (k : ℤ))).length +
      (rightColCells ((n : ℤ) - 1 - (k : ℤ)) ((k : ℤ) + 1)
        ((n : ℤ) - 1 - (k : ℤ))).length ≤ n * n + 1 := by
    rw [hL1, hL2, hbase]
    omega
  have g3 : sqBase n k + 1 + (topRowCells (k : ℤ) (k : ℤ)
      ((n : ℤ) - 1 - (k : ℤ))).length +
      (rightColCells ((n : ℤ) - 1 - (k : ℤ)) ((k : ℤ) + 1)
        ((n : ℤ) - 1 - (k : ℤ))).length +
      (bottomRowCells ((n : ℤ) - 1 - (k : ℤ))
        ((n : ℤ) - 1 - (k : ℤ) - 1) (k : ℤ)).length ≤ n * n + 1 := by
    rw [hL1, hL2, hL3, hbase]
    omega
  have g4 : sqBase n k + 1 + (topRowCells (k : ℤ) (k : ℤ)
      ((n : ℤ) - 1 - (k : ℤ))).length +
      (rightColCells ((n : ℤ) - 1 - (k : ℤ)) ((k : ℤ) + 1)
        ((n : ℤ) - 1 - (k : ℤ))).length +
      (bottomRowCells ((n : ℤ) - 1 - (k : ℤ))
        ((n : ℤ) - 1 - (k : ℤ) - 1) (k : ℤ)).length +
      (leftColCells (k : ℤ) ((n : ℤ) - 1 - (k : ℤ) - 1)
        ((k : ℤ) + 1)).length ≤ n * n + 1 := by
    rw [hL1, hL2, hL3, hL4, hbase]
    omega
  have e1 := fillCells_eq_writeCells
    (topRowCells (k : ℤ) (k : ℤ) ((n : ℤ) - 1 - (k : ℤ))) mat
    (sqBase n k + 1) (n * n) g1
  have e2 := fillCells_eq_writeCells
    (rightColCells ((n : ℤ) - 1 - (k : ℤ)) ((k : ℤ) + 1)
      ((n : ℤ) - 1 - (k : ℤ)))
    (writeCells mat (topRowCells (k : ℤ) (k : ℤ)
      ((n : ℤ) - 1 - (k : ℤ))) (sqBase n k + 1))
    (sqBase n k + 1 + (topRowCells (k : ℤ) (k : ℤ)
      ((n : ℤ) - 1 - (k : ℤ))).length) (n * n) g2
  have e3 := fillCells_eq_writeCells
    (bottomRowCells ((n : ℤ) - 1 - (k : ℤ))
      ((n : ℤ) - 1 - (k : ℤ) - 1) (k : ℤ))
    (writeCells (writeCells mat (topRowCells (k : ℤ) (k : ℤ)
      ((n : ℤ) - 1 - (k : ℤ))) (sqBase n k + 1))
      (rightColCells ((n : ℤ) - 1 - (k : ℤ)) ((k : ℤ) + 1)
        ((n : ℤ) - 1 - (k : ℤ)))
      (sqBase n k + 1 + (topRowCells (k : ℤ) (k : ℤ)
        ((n : ℤ) - 1 - (k : ℤ))).length))
    (sqBase n k + 1 + (topRowCells (k : ℤ) (k : ℤ)
      ((n : ℤ) - 1 - (k : ℤ))).length +
      (rightColCells ((n : ℤ) - 1 - (k : ℤ)) ((k : ℤ) + 1)
        ((n : ℤ) - 1 - (k : ℤ))).length) (n * n) g3
  have e4 := fillCells_eq_writeCells
    (leftColCells (k : ℤ) ((n : ℤ) - 1 - (k : ℤ) - 1) ((k : ℤ) + 1))
    (writeCells (writeCells (writeCells mat (topRowCells (k : ℤ) (k : ℤ)
      ((n : ℤ) - 1 - (k : ℤ))) (sqBase n k + 1))
      (rightColCells ((n : ℤ) - 1 - (k : ℤ)) ((k : ℤ) + 1)
        ((n : ℤ) - 1 - (k : ℤ)))
      (sqBase n k + 1 + (topRowCells (k : ℤ) (k : ℤ)
        ((n : ℤ) - 1 - (k : ℤ))).length))
      (bottomRowCells ((n : ℤ) - 1 - (k : ℤ))
        ((n : ℤ) - 1 - (k : ℤ) - 1) (k : ℤ))
      (sqBase n k + 1 + (topRowCells (k : ℤ) (k : ℤ)
        ((n : ℤ) - 1 - (k : ℤ))).length +
        (rightColCells ((n : ℤ) - 1 - (k : ℤ)) ((k : ℤ) + 1)
          ((n : ℤ) - 1 - (k : ℤ))).length))
    (sqBase n k + 1 + (topRowCells (k : ℤ) (k : ℤ)
      ((n : ℤ) - 1 - (k : ℤ))).length +
      (rightColCells ((n : ℤ) - 1 - (k : ℤ)) ((k : ℤ) + 1)
        ((n : ℤ) - 1 - (k : ℤ))).length +
      (bottomRowCells ((n : ℤ) - 1 - (k : ℤ))
        ((n : ℤ) - 1 - (k : ℤ) - 1) (k : ℤ)).length) (n * n) g4
  simp only [spiralBody, e1, e2, e3, e4]
  rw [hL1, hL2, hL3, hL4]
  clear e1 e2 e3 e4 g1 g2 g3 g4 hmm2 hcard hbase hL1 hL2 hL3 hL4
  have hrows1 : ∀ row ∈ writeCells mat (topRowCells (k : ℤ) (k : ℤ)
      ((n : ℤ) - 1 - (k : ℤ))) (sqBase n k + 1), row.length = n :=
    rows_writeCells _ _ _ n hrows
  have hlen1m : (writeCells mat (topRowCells (k : ℤ) (k : ℤ)
      ((n : ℤ) - 1 - (k : ℤ))) (sqBase n k + 1)).length = n := by
    rw [length_writeCells]
    exact hlen
  have hrows2 : ∀ row ∈ writeCells (writeCells mat
      (topRowCells (k : ℤ) (k : ℤ) ((n : ℤ) - 1 - (k : ℤ)))
      (sqBase n k + 1))
      (rightColCells ((n : ℤ) - 1 - (k : ℤ)) ((k : ℤ) + 1)
        ((n : ℤ) - 1 - (k : ℤ)))
      (sqBase n k + 1 + (n - 2 * k)), row.length = n :=
    rows_writeCells _ _ _ n hrows1
  have hlen2m : (writeCells (writeCells mat
      (topRowCells (k : ℤ) (k : ℤ) ((n : ℤ) - 1 - (k : ℤ)))
      (sqBase n k + 1))
      (rightColCells ((n : ℤ) - 1 - (k : ℤ)) ((k : ℤ) + 1)
        ((n : ℤ) - 1 - (k : ℤ)))
      (sqBase n k + 1 + (n - 2 * k))).length = n := by
    rw [length_writeCells]
    exact hlen1m
  have hrows3 : ∀ row ∈ writeCells (writeCells (writeCells mat
      (topRowCells (k : ℤ) (k : ℤ) ((n : ℤ) - 1 - (k : ℤ)))
      (sqBase n k + 1))
      (rightColCells ((n : ℤ) - 1 - (k : ℤ)) ((k : ℤ) + 1)
        ((n : ℤ) - 1 - (k : ℤ)))
      (sqBase n k + 1 + (n - 2 * k)))
      (bottomRowCells ((n : ℤ) - 1 - (k : ℤ))
        ((n : ℤ) - 1 - (k : ℤ) - 1) (k : ℤ))
      (sqBase n k + 1 + (n - 2 * k) + (n - 2 * k - 1)),
      row.length = n :=
    rows_writeCells _ _ _ n hrows2
  have hlen3m : (writeCells (writeCells (writeCells mat
      (topRowCells (k : ℤ) (k : ℤ) ((n : ℤ) - 1 - (k : ℤ)))
      (sqBase n k + 1))
      (rightColCells ((n : ℤ) - 1 - (k : ℤ)) ((k : ℤ) + 1)
        ((n : ℤ) - 1 - (k : ℤ)))
      (sqBase n k + 1 + (n - 2 * k)))
      (bottomRowCells ((n : ℤ) - 1 - (k : ℤ))
        ((n : ℤ) - 1 - (k : ℤ) - 1) (k : ℤ))
      (sqBase n k + 1 + (n - 2 * k) + (n - 2 * k - 1))).length = n := by
    rw [length_writeCells]
    exact hlen2m
  unfold ringInv
  refine ⟨?_, ?_, ?_, ?_, ?_, ?_, ?_, ?_, ?_⟩
  · show (k : ℤ) + 1 = ((k + 1 : ℕ) : ℤ)
    omega
  · show (k : ℤ) + 1 = ((k + 1 : ℕ) : ℤ)
    omega
  · show (n : ℤ) - 1 - (k : ℤ) - 1 = (n : ℤ) - 1 - ((k + 1 : ℕ) : ℤ)
    omega
  · show (n : ℤ) - 1 - (k : ℤ) - 1 = (n : ℤ) - 1 - ((k + 1 : ℕ) : ℤ)
    omega
  · show sqBase n k + 1 + (n - 2 * k) + (n - 2 * k - 1) +
      (n - 2 * k - 1) + (n - 2 * k - 2) = sqBase n (k + 1) + 1
    have hbase : sqBase n k = n * n - (n - 2 * k) * (n - 2 * k) := rfl
    have hb2 : sqBase n (k + 1) =
        n * n - (n - 2 * (k + 1)) * (n - 2 * (k + 1)) := rfl
    have hmm2 : (n - 2 * k) * (n - 2 * k) ≤ n * n :=
      Nat.mul_le_mul (by omega) (by omega)
    rw [hbase, hb2]
    rcases Nat.lt_or_ge (n - 2 * k) 2 with hsm | hsm
    · have hone : n - 2 * k = 1 := by omega
      have hz : n - 2 * (k + 1) = 0 := by omega
      have hn1 : 1 ≤ n * n :=
        Nat.one_le_iff_ne_zero.2 (Nat.mul_ne_zero (by omega) (by omega))
      rw [hone, hz]
      omega
    · have hpeel := sq_peel (n - 2 * k) hsm
      have he2 : n - 2 * (k + 1) = n - 2 * k - 2 := by omega
      rw [he2]
      omega
  · show (writeCells _ (leftColCells (k : ℤ)
      ((n : ℤ) - 1 - (k : ℤ) - 1) ((k : ℤ) + 1)) _).length = n
    rw [length_writeCells]
    exact hlen3m
  · show ∀ row ∈ writeCells _ (leftColCells (k : ℤ)
      ((n : ℤ) - 1 - (k : ℤ) - 1) ((k : ℤ) + 1)) _, row.length = n
    exact rows_writeCells _ _ _ n hrows3
  · -- the outer k + 1 rings now hold their spiral values
    intro i j hi hj hr
    have hroeq : ringOf n i j =
        min (min i j) (min (n - 1 - i) (n - 1 - j)) := rfl
    rcases Nat.lt_or_ge (ringOf n i j) k with hrk | hrk
    · have hni1 : ((i : ℤ), (j : ℤ)) ∉ topRowCells (k : ℤ) (k : ℤ)
          ((n : ℤ) - 1 - (k : ℤ)) := by
        intro hmem
        have := mem_topRow_seg n k i j hmem
        omega
      have hni2 : ((i : ℤ), (j : ℤ)) ∉ rightColCells
          ((n : ℤ) - 1 - (k : ℤ)) ((k : ℤ) + 1)
          ((n : ℤ) - 1 - (k : ℤ)) := by
        intro hmem
        have := mem_rightCol_seg n k i j hmem
        omega
      have hni3 : ((i : ℤ), (j : ℤ)) ∉ bottomRowCells
          ((n : ℤ) - 1 - (k : ℤ)) ((n : ℤ) - 1 - (k : ℤ) - 1)
          (k : ℤ) := by
        intro hmem
        have := mem_bottomRow_seg n k i j hmem
        omega
      have hni4 : ((i : ℤ), (j : ℤ)) ∉ leftColCells (k : ℤ)
          ((n : ℤ) - 1 - (k : ℤ) - 1) ((k : ℤ) + 1) := by
        intro hmem
        have := mem_leftCol_seg n k i j hmem
        omega
      rw [matEntry_writeCells_notMem _ _ _ _ _ hni4,
        matEntry_writeCells_notMem _ _ _ _ _ hni3,
        matEntry_writeCells_notMem _ _ _ _ _ hni2,
        matEntry_writeCells_notMem _ _ _ _ _ hni1]
      exact hfilled i j hi hj hrk
    · have hrek : ringOf n i j = k := by omega
      rw [hroeq] at hrek
      by_cases hcase1 : i = k
      · have hni2 : ((i : ℤ), (j : ℤ)) ∉ rightColCells
            ((n : ℤ) - 1 - (k : ℤ)) ((k : ℤ) + 1)
            ((n : ℤ) - 1 - (k : ℤ)) := by
          intro hmem
          have := mem_rightCol_seg n k i j hmem
          omega
        have hni3 : ((i : ℤ), (j : ℤ)) ∉ bottomRowCells
            ((n : ℤ) - 1 - (k : ℤ)) ((n : ℤ) - 1 - (k : ℤ) - 1)
            (k : ℤ) := by
          intro hmem
          have := mem_bottomRow_seg n k i j hmem
          omega
        have hni4 : ((i : ℤ), (j : ℤ)) ∉ leftColCells (k : ℤ)
            ((n : ℤ) - 1 - (k : ℤ) - 1) ((k : ℤ) + 1) := by
          intro hmem
          have := mem_leftCol_seg n k i j hmem
          omega
        rw [matEntry_writeCells_notMem _ _ _ _ _ hni4,
          matEntry_writeCells_notMem _ _ _ _ _ hni3,
          matEntry_writeCells_notMem _ _ _ _ _ hni2]
        exact topSeg_entry n k i j mat hlen hrows hi hj hk2 hcase1
          (by omega) (by omega)
      · by_cases hcase2 : j + k + 1 = n
        · have hni3 : ((i : ℤ), (j : ℤ)) ∉ bottomRowCells
              ((n : ℤ) - 1 - (k : ℤ)) ((n : ℤ) - 1 - (k : ℤ) - 1)
              (k : ℤ) := by
            intro hmem
            have := mem_bottomRow_seg n k i j hmem
            omega
          have hni4 : ((i : ℤ), (j : ℤ)) ∉ leftColCells (k : ℤ)
              ((n : ℤ) - 1 - (k : ℤ) - 1) ((k : ℤ) + 1) := by
            intro hmem
            have := mem_leftCol_seg n k i j hmem
            omega
          rw [matEntry_writeCells_notMem _ _ _ _ _ hni4,
            matEntry_writeCells_notMem _ _ _ _ _ hni3]
          exact rightSeg_entry n k i j _ hlen1m hrows1 hi hj hk2 hcase2
            (by omega) (by omega)
        · by_cases hcase3 : i + k + 1 = n
          · have hni4 : ((i : ℤ), (j : ℤ)) ∉ leftColCells (k : ℤ)
                ((n : ℤ) - 1 - (k : ℤ) - 1) ((k : ℤ) + 1) := by
              intro hmem
              have := mem_leftCol_seg n k i j hmem
              omega
            rw [matEntry_writeCells_notMem _ _ _ _ _ hni4]
            exact bottomSeg_entry n k i j _ hlen2m hrows2 hi hj hk2 hcase3
              (by omega) (by omega)
          · exact leftSeg_entry n k i j _ hlen3m hrows3 hi hj hk2
              (by omega) (by omega) (by omega)
  · -- the inner square is still zero
    intro i j hi hj hr
    have hroeq : ringOf n i j =
        min (min i j) (min (n - 1 - i) (n - 1 - j)) := rfl
    have hni1 : ((i : ℤ), (j : ℤ)) ∉ topRowCells (k : ℤ) (k : ℤ)
        ((n : ℤ) - 1 - (k : ℤ)) := by
      intro hmem
      have := mem_topRow_seg n k i j hmem
      omega
    have hni2 : ((i : ℤ), (j : ℤ)) ∉ rightColCells
        ((n : ℤ) - 1 - (k : ℤ)) ((k : ℤ) + 1)
        ((n : ℤ) - 1 - (k : ℤ)) := by
      intro hmem
      have := mem_rightCol_seg n k i j hmem
      omega
    have hni3 : ((i : ℤ), (j : ℤ)) ∉ bottomRowCells
        ((n : ℤ) - 1 - (k : ℤ)) ((n : ℤ) - 1 - (k : ℤ) - 1)
        (k : ℤ) := by
      intro hmem
      have := mem_bottomRow_seg n k i j hmem
      omega
    have hni4 : ((i : ℤ), (j : ℤ)) ∉ leftColCells (k : ℤ)
        ((n : ℤ) - 1 - (k : ℤ) - 1) ((k : ℤ) + 1) := by
      intro hmem
      have := mem_leftCol_seg n k i j hmem
      omega
    rw [matEntry_writeCells_notMem _ _ _ _ _ hni4,
      matEntry_writeCells_notMem _ _ _ _ _ hni3,
      matEntry_writeCells_notMem _ _ _ _ _ hni2,
      matEntry_writeCells_notMem _ _ _ _ _ hni1]
    exact hzero i j hi hj (by omega)
theorem ringInv_start (n : ℕ) :
    ringInv n 0
      { matrix := List.replicate n (List.replicate n 0)
        top := 0
        bottom := (n : ℤ) - 1
        left := 0
        right := (n : ℤ) - 1
        current := 1 } := by
  refine ⟨by simp, by simp, by simp, by simp, ?_, by simp, ?_, ?_, ?_⟩
  · show 1 = sqBase n 0 + 1
    have h : sqBase n 0 = n * n - (n - 2 * 0) * (n - 2 * 0) := rfl
    have h2 : n - 2 * 0 = n := by omega
    rw [h, h2]
    omega
  · intro row hrow
    rw [List.eq_of_mem_replicate hrow]
    simp
  · intro i j hi hj hr
    omega
  · intro i j hi hj hr
    unfold matEntry
    have h1 : (List.replicate n (List.replicate n 0)).getD i [] =
        List.replicate n 0 := by
      rw [List.getD_eq_getElem?_getD, List.getElem?_replicate, if_pos hi]
      rfl
    rw [h1, List.getD_eq_getElem?_getD, List.getElem?_replicate, if_pos hj]
    rfl

theorem spiralLoop_ringInv (n : ℕ) :
    ∀ (fuel k : ℕ) (st : SpiralState), ringInv n k st →
      k ≤ (n + 1) / 2 → (n + 1) / 2 - k ≤ fuel →
      ringInv n ((n + 1) / 2) (spiralLoop (n * n) fuel st) := by
  intro fuel
  induction fuel with
  | zero =>
    intro k st hinv hk hfuel
    have hke : k = (n + 1) / 2 := by omega
    subst hke
    exact hinv
  | succ f ih =>
    intro k st hinv hk hfuel
    rcases Nat.lt_or_ge k ((n + 1) / 2) with hlt | hge
    · have h2k : 2 * k + 1 ≤ n := by omega
      have hcur := hinv.2.2.2.2.1
      have hsqpos : 1 ≤ (n - 2 * k) * (n - 2 * k) :=
        Nat.one_le_iff_ne_zero.2 (Nat.mul_ne_zero (by omega) (by omega))
      have hmm2 : (n - 2 * k) * (n - 2 * k) ≤ n * n :=
        Nat.mul_le_mul (by omega) (by omega)
      have hguard : st.current ≤ n * n := by
        rw [hcur]
        unfold sqBase
        omega
      simp only [spiralLoop, if_pos hguard]
      exact ih (k + 1) (spiralBody st (n * n))
        (spiralBody_ringInv n k st h2k hinv) (by omega) (by omega)
    · have hke : k = (n + 1) / 2 := by omega
      subst hke
      have hcur := hinv.2.2.2.2.1
      have h0 : n - 2 * ((n + 1) / 2) = 0 := by omega
      have hguard : ¬ st.current ≤ n * n := by
        rw [hcur]
        unfold sqBase
        rw [h0]
        omega
      simp only [spiralLoop, if_neg hguard]
      exact hinv

theorem spiralMatrixc_entries (n : ℕ) (hn : 0 < n) :
    (spiralMatrixc n).length = n ∧
    (∀ row ∈ spiralMatrixc n, row.length = n) ∧
    (∀ i j, i < n → j < n →
      matEntry (spiralMatrixc n) i j = spiralValue n i j) := by
  unfold spiralMatrixc
  have hfin := spiralLoop_ringInv n n 0 _ (ringInv_start n) (by omega)
    (by omega)
  obtain ⟨_, _, _, _, _, hlen, hrows, hfilled, _⟩ := hfin
  refine ⟨hlen, hrows, ?_⟩
  intro i j hi hj
  apply hfilled i j hi hj
  have hroeq : ringOf n i j =
      min (min i j) (min (n - 1 - i) (n - 1 - j)) := rfl
  omega

/-! #### Spiral matrix: the spec values enumerate 1..n^2 -/

theorem spiralValue_bounds :
    ∀ n i j, i < n → j < n →
      1 ≤ spiralValue n i j ∧ spiralValue n i j ≤ n * n := by
  intro n
  induction n using Nat.strong_induction_on with
  | _ n ih =>
    rcases n with _ | N
    · intro i j hi hj
      omega
    · intro i j hi hj
      simp only [spiralValue]
      split_ifs with h1 h2 h3 h4
      · have hle : N + 1 ≤ (N + 1) * (N + 1) :=
          Nat.le_mul_of_pos_left _ (by omega)
        omega
      · have hsq : (N + 1) * (N + 1) = N * N + 2 * N + 1 := by ring
        omega
      · have hsq : (N + 1) * (N + 1) = N * N + 2 * N + 1 := by ring
        have hNN : 1 * N ≤ N * N := Nat.mul_le_mul_right N (by omega)
        omega
      · have hsq : (N + 1) * (N + 1) = N * N + 2 * N + 1 := by ring
        have h2N : 2 * N ≤ N * N + 1 := by
          rcases Nat.lt_or_ge N 2 with h | h
          · interval_cases N <;> simp
          · have := Nat.mul_le_mul_right N h
            omega
        omega
      · have hrec := ih (N - 1) (by omega) (i - 1) (j - 1) (by omega)
          (by omega)
        have hN1 : 1 ≤ N := by omega
        have hpeelN : (N - 1) * (N - 1) + 2 * N = N * N + 1 := by
          obtain ⟨N2, rfl⟩ : ∃ N2, N = N2 + 1 := ⟨N - 1, by omega⟩
          simp only [Nat.add_sub_cancel]
          ring
        have hsq : (N + 1) * (N + 1) = N * N + 2 * N + 1 := by ring
        omega

theorem spiralValue_inj :
    ∀ n i j i2 j2, i < n → j < n → i2 < n → j2 < n →
      spiralValue n i j = spiralValue n i2 j2 → i = i2 ∧ j = j2 := by
  intro n
  induction n using Nat.strong_induction_on with
  | _ n ih =>
    rcases n with _ | N
    · intro i j i2 j2 hi hj hi2 hj2 heq
      omega
    · intro i j i2 j2 hi hj hi2 hj2 heq
      simp only [spiralValue] at heq
      split_ifs at heq
      all_goals try omega
      all_goals try (
        have hbL := spiralValue_bounds (N - 1) (i - 1) (j - 1) (by omega)
          (by omega))
      all_goals try (
        have hbR := spiralValue_bounds (N - 1) (i2 - 1) (j2 - 1) (by omega)
          (by omega))
      all_goals try omega
      all_goals (
        have hbv := ih (N - 1) (by omega) (i - 1) (j - 1) (i2 - 1) (j2 - 1)
          (by omega) (by omega) (by omega) (by omega) (by omega)
        omega)

theorem spiralMatrixc_rows_eq (n : ℕ) (hn : 0 < n) :
    spiralMatrixc n = (List.range n).map
      (fun i => (List.range n).map (fun j => spiralValue n i j)) := by
  obtain ⟨hlen, hrows, hent⟩ := spiralMatrixc_entries n hn
  apply List.ext_getElem
  · simp [hlen]
  · intro i h1 h2
    have hi : i < n := by
      rw [hlen] at h1
      exact h1
    have hrowmem : (spiralMatrixc n)[i] ∈ spiralMatrixc n :=
      List.getElem_mem h1
    have hrowlen : (spiralMatrixc n)[i].length = n :=
      hrows _ hrowmem
    rw [List.getElem_map, List.getElem_range]
    apply List.ext_getElem
    · simp [hrowlen]
    · intro j hj1 hj2
      have hj : j < n := by
        rw [hrowlen] at hj1
        exact hj1
      rw [List.getElem_map, List.getElem_range]
      have := hent i j hi hj
      unfold matEntry at this
      simp only [List.getD_eq_getElem?_getD] at this
      rw [List.getElem?_eq_getElem h1] at this
      simp only [Option.getD_some] at this
      rw [List.getElem?_eq_getElem hj1] at this
      simp only [Option.getD_some] at this
      exact this

theorem spiralMatrixc_flatten_perm (n : ℕ) (hn : 0 < n) :
    ((spiralMatrixc n).flatten).Perm (List.range' 1 (n * n)) := by
  rw [spiralMatrixc_rows_eq n hn]
  have hnodup : ((List.range n).map
      (fun i => (List.range n).map (fun j => spiralValue n i j))).flatten.Nodup := by
    rw [List.nodup_flatten]
    constructor
    · intro l hl
      simp only [List.mem_map, List.mem_range] at hl
      obtain ⟨i, hi, rfl⟩ := hl
      refine List.Nodup.map_on ?_ (List.nodup_range n)
      intro x hx y hy hxy
      simp only [List.mem_range] at hx hy
      exact (spiralValue_inj n i x i y hi hx hi hy hxy).2
    · rw [List.pairwise_map]
      refine List.Pairwise.imp_of_mem ?_ (List.pairwise_lt_range n)
      intro a b ha hb hab
      simp only [List.mem_range] at ha hb
      intro x hxa hxb
      simp only [List.mem_map, List.mem_range] at hxa hxb
      obtain ⟨ja, hja, rfl⟩ := hxa
      obtain ⟨jb, hjb, heq⟩ := hxb
      have := (spiralValue_inj n b jb a ja hb hjb ha hja heq).1
      omega
  have hsub : ((List.range n).map
      (fun i => (List.range n).map (fun j => spiralValue n i j))).flatten ⊆
      List.range' 1 (n * n) := by
    intro a ha
    rw [List.mem_flatten] at ha
    obtain ⟨l, hl, hal⟩ := ha
    simp only [List.mem_map, List.mem_range] at hl
    obtain ⟨i, hi, rfl⟩ := hl
    simp only [List.mem_map, List.mem_range] at hal
    obtain ⟨j, hj, rfl⟩ := hal
    have := spiralValue_bounds n i j hi hj
    rw [List.mem_range'_1]
    omega
  have hlenf : ((List.range n).map
      (fun i => (List.range n).map (fun j => spiralValue n i j))).flatten.length =
      n * n := by
    rw [List.length_flatten, List.map_map]
    have : (List.map (List.length ∘ fun i =>
        (List.range n).map (fun j => spiralValue n i j)) (List.range n)) =
        List.replicate n n := by
      rw [show (List.length ∘ fun i =>
        (List.range n).map (fun j => spiralValue n i j)) =
          fun _ => n from ?_]
      · rw [List.map_const']
        simp
      · funext i
        simp
    rw [this, List.sum_const_nat]
  have hsubperm := List.subperm_of_subset hnodup hsub
  refine hsubperm.perm_of_length_le ?_
  rw [hlenf, List.length_range']

/-- **C5.** For every positive `n`, `spiralMatrixc n` is an `n × n` matrix
whose entries are exactly the integers `1..n^2` (the flattening is a
permutation of `[1..n^2]`), arranged in clockwise spiral order starting
from the top-left corner (cell `(i, j)` holds `spiralValue n i j`, the
spec's clockwise-spiral value), and in particular
`spiralMatrixc 3 = [[1,2,3],[8,9,4],[7,6,5]]`. -/
theorem spiralMatrixc_correct (n : ℕ) (hn : 0 < n) :
    (spiralMatrixc n).length = n ∧
    (∀ row ∈ spiralMatrixc n, row.length = n) ∧
    ((spiralMatrixc n).flatten).Perm (List.range' 1 (n * n)) ∧
    (∀ i j, i < n → j < n →
      matEntry (spiralMatrixc n) i j = spiralValue n i j) ∧
    spiralMatrixc 3 = [[1, 2, 3], [8, 9, 4], [7, 6, 5]] := by
  obtain ⟨h1, h2, h3⟩ := spiralMatrixc_entries n hn
  exact ⟨h1, h2, spiralMatrixc_flatten_perm n hn, h3, by decide⟩

/-- Witness for **C5** at `n = 3`. -/
theorem spiralMatrixc_correct_witness :
    (spiralMatrixc 3).length = 3 ∧
    (∀ row ∈ spiralMatrixc 3, row.length = 3) ∧
    ((spiralMatrixc 3).flatten).Perm (List.range' 1 (3 * 3)) ∧
    (∀ i j, i < 3 → j < 3 →
      matEntry (spiralMatrixc 3) i j = spiralValue 3 i j) ∧
    spiralMatrixc 3 = [[1, 2, 3], [8, 9, 4], [7, 6, 5]] :=
  spiralMatrixc_correct 3 (by decide)
